import Mathlib

/-
  Verification of the construct extraction and merge engine of the cesium
  documentation generator.

  Shallow embedding of:
    - src/backend/doc/cpp/ast_extractor.cpp   (ASTExtractor)
    - src/backend/doc/cpp/ts_ast_parser.cpp   (DocAssociator)

  Source text is modelled as `List Char` (one `Char` per source byte; all
  inputs considered are ASCII, where C++ bytes and Lean characters agree).
  C++ `std::optional` becomes `Option`; the only operation that can throw in
  the extractor is `std::string::substr` with an out-of-range start position,
  which is modelled by giving the text-slicing primitives an `Option` result;
  every fallible extraction function is therefore `Option`-valued, with
  `none` standing for an exception escaping the extractor.
-/

set_option maxHeartbeats 2000000

namespace Cesium

/-- Source text: a list of characters, one per byte of the C++ `std::string`. -/
abbrev Str := List Char

/-- Coercion from Lean string literals to the `Str` text model. -/
def s (x : String) : Str := x.toList

/-- Model of C `isspace` in the default locale, restricted to ASCII. -/
def isSpaceC (c : Char) : Bool :=
  c = ' ' || c = '\t' || c = '\n' || c = '\x0b' || c = '\x0c' || c = '\r'

/-- Model of C `isalnum` in the default locale, restricted to ASCII. -/
def isAlnumC (c : Char) : Bool :=
  c.isAlpha || c.isDigit

/-- Identifier characters used by the backward name scans that also accept a
destructor tilde: `isalnum(c) || c == '_' || c == '~'`. -/
def isIdentTilde (c : Char) : Bool :=
  isAlnumC c || c = '_' || c = '~'

/-- Identifier characters without the tilde: `isalnum(c) || c == '_'`. -/
def isIdentPlain (c : Char) : Bool :=
  isAlnumC c || c = '_'

/-- Model of `std::string::substr(pos, count)` at an in-range position:
the slice `[pos, pos + count)` clamped to the end of the text.  The
out-of-range (`pos > size()`, throwing) case is handled separately at the two
call sites that can reach it (`getNodeText`, `findNearbyDocstring`). -/
def substr (t : Str) (pos count : Nat) : Str :=
  (t.drop pos).take count

/-- Model of `std::string::find(pat, start)`: the smallest position `i ≥ start`
at which `pat` occurs in full, `none` for `npos`. -/
def strFindFrom (t pat : Str) (start : Nat) : Option Nat :=
  (List.range (t.length + 1)).find? (fun i => decide (start ≤ i) && pat.isPrefixOf (t.drop i))

/-- Model of `std::string::find(pat)`. -/
def strFind (t pat : Str) : Option Nat :=
  strFindFrom t pat 0

/-- Model of `std::string::rfind(pat)`: the largest position at which `pat`
occurs in full, `none` for `npos`. -/
def strRFind (t pat : Str) : Option Nat :=
  (List.range (t.length + 1)).reverse.find? (fun i => pat.isPrefixOf (t.drop i))

/-- Model of the repeated `while (!x.empty() && isspace(x.back())) x.pop_back()`
trailing-whitespace trimming loops. -/
def trimTrailingSpace (t : Str) : Str :=
  (t.reverse.dropWhile isSpaceC).reverse

/-- Model of `while (i < t.size() && isspace(t[i])) i++`. -/
def skipSpaces (t : Str) (i : Nat) : Nat :=
  i + ((t.drop i).takeWhile isSpaceC).length

/-- Model of the backward scans
`while (start > 0 && pred(t[start-1])) start--` that begin at `stop`:
the start index of the maximal run of `pred`-characters ending at `stop`. -/
def identStartFrom (pred : Char → Bool) (t : Str) (stop : Nat) : Nat :=
  stop - ((t.take stop).reverse.takeWhile pred).length

/-- Model of `std::to_string` on an unsigned value. -/
def natToStr (n : Nat) : Str :=
  (Nat.repr n).toList

/-- Model of the docstring concatenation loops:
`for i, if (i > 0) r += sep; r += xs[i]`. -/
def joinSep (sep : Str) : List Str → Str
  | [] => []
  | [x] => x
  | x :: y :: rest => x ++ sep ++ joinSep sep (y :: rest)

/-- ConstructType from ast_extractor.h. -/
inductive ConstructType where
  | Function
  | Method
  | Class
  | Struct
  | Enum
  | Variable
  | Namespace
  | Constructor
  | Destructor
deriving DecidableEq

/-- Parameter from ast_extractor.h.  `default_value` is declared in the data
model but never populated by the extractor (TODO in the source). -/
structure Parameter where
  type : Str := []
  name : Str := []
  default_value : Option Str := none
deriving DecidableEq

/-- CodeConstruct from ast_extractor.h.  The transient `ast_node` handle is a
borrowed tree pointer used only during extraction of the construct itself and
carries no document data, so it is not part of the embedded record. -/
structure CodeConstruct where
  type : ConstructType := ConstructType.Function
  name : Str := []
  full_name : Str := []
  namespace_path : Str := []
  return_type : Option Str := none
  parameters : List Parameter := []
  is_static : Bool := false
  is_const : Bool := false
  is_virtual : Bool := false
  base_classes : List Str := []
  access_modifier : Str := []
  docstring : Option Str := none
  start_line : Nat := 0
  end_line : Nat := 0
  filename : Str := []
  source_locations : List Str := []
  merged_docstrings : List Str := []
  is_merged : Bool := false
deriving DecidableEq

instance : Inhabited CodeConstruct := ⟨{}⟩

/-- Lexicographic byte comparison: `std::string::operator<` (ASCII bytes and
`Char` code points agree on the inputs considered). -/
def strLt : Str → Str → Bool
  | [], [] => false
  | [], _ :: _ => true
  | _ :: _, [] => false
  | a :: as, b :: bs => if a < b then true else if b < a then false else strLt as bs

/-- One entry of the `std::map<std::string, std::vector<size_t>>` used by
`mergeDuplicateConstructs`, enriched with the construct stored at each index so
that bucket processing does not have to re-index the input vector. -/
abbrev DupEntry := Str × List (Nat × CodeConstruct)

/-- Ordered-map insertion mirroring `std::map` keyed by `full_name`:
`duplicates[full_name].push_back(i)`.  Keys are kept in strictly ascending
`strLt` order, which is the iteration order of `std::map`. -/
def insertDup (m : List DupEntry) (k : Str) (p : Nat × CodeConstruct) : List DupEntry :=
  match m with
  | [] => [(k, [p])]
  | (k2, ps) :: rest =>
    if k = k2 then (k2, ps ++ [p]) :: rest
    else if strLt k k2 then (k, [p]) :: (k2, ps) :: rest
    else (k2, ps) :: insertDup rest k p

/-- Loop body of the grouping pass of `mergeDuplicateConstructs`: a construct
with a non-empty `full_name` is bucketed under that name; empty names are
never grouped. -/
def dupStep (m : List DupEntry) (ic : Nat × CodeConstruct) : List DupEntry :=
  if ic.2.full_name = [] then m else insertDup m ic.2.full_name ic

/-- Grouping pass of `mergeDuplicateConstructs` over the indexed constructs. -/
def buildDups (cs : List CodeConstruct) : List DupEntry :=
  cs.enum.foldl dupStep []

/-- Lookup in the ordered bucket map (empty list for an absent key). -/
def lookupDup (m : List DupEntry) (k : Str) : List (Nat × CodeConstruct) :=
  match m with
  | [] => []
  | (k2, ps) :: rest => if k = k2 then ps else lookupDup rest k

/-- ASTExtractor::detectDocstringConflicts. -/
def detectDocstringConflicts (c1 c2 : CodeConstruct) : List Str :=
  let conflicts : List Str := []
  let conflicts :=
    match c1.docstring, c2.docstring with
    | some d1, some d2 =>
      if d1 ≠ [] ∧ d2 ≠ [] ∧ d1 ≠ d2 then
        conflicts ++ [s "Different docstring content in " ++ c1.filename ++ s " vs " ++ c2.filename]
      else conflicts
    | _, _ => conflicts
  if c1.parameters.length ≠ c2.parameters.length then
    conflicts ++ [s "Parameter count mismatch: " ++ natToStr c1.parameters.length
                  ++ s " vs " ++ natToStr c2.parameters.length]
  else conflicts

/-- Body of the per-occurrence loop of the duplicate-merging branch: push the
`"<filename>:<start_line>"` location, push a non-empty docstring, and (for
occurrences after the first, `idx != indices[0]`) count conflicts against the
accumulating merged record. -/
def mergeStep (i0 : Nat) (acc : CodeConstruct × Nat) (p : Nat × CodeConstruct) :
    CodeConstruct × Nat :=
  let m := acc.1
  let c := p.2
  let m := { m with source_locations :=
               m.source_locations ++ [c.filename ++ s ":" ++ natToStr c.start_line] }
  let m :=
    match c.docstring with
    | some d => if d ≠ [] then { m with merged_docstrings := m.merged_docstrings ++ [d] } else m
    | none => m
  let conf := if p.1 ≠ i0 then acc.2 + (detectDocstringConflicts m c).length else acc.2
  (m, conf)

/-- Processing of one bucket of `mergeDuplicateConstructs`: buckets of size one
pass through unchanged; larger buckets are merged, seeded from the first
occurrence, and their docstring fragments are joined with a blank line.
Returns the bucket's conflict count together with its output record.
Buckets produced by `buildDups` are never empty; the empty case is dead. -/
def mergeBucket (entry : DupEntry) : Nat × CodeConstruct :=
  match entry.2 with
  | [] => (0, default)
  | (i0, c0) :: rest =>
    if rest = [] then (0, c0)
    else
      let init : CodeConstruct × Nat :=
        ({ c0 with is_merged := true, source_locations := [], merged_docstrings := [] }, 0)
      let res := ((i0, c0) :: rest).foldl (mergeStep i0) init
      let m := res.1
      let m :=
        if m.merged_docstrings = [] then m
        else { m with docstring := some (joinSep (s "\n\n") m.merged_docstrings) }
      (res.2, m)

/-- ASTExtractor::mergeDuplicateConstructs, returning the conflict count and
the rewritten construct vector.  The trailing pass over unprocessed indices
appends exactly the constructs with empty `full_name`, in their original
order: every index with a non-empty name was placed in a bucket and hence
marked processed. -/
def mergeDuplicateConstructs (cs : List CodeConstruct) : Nat × List CodeConstruct :=
  if cs = [] then (0, [])
  else
    let results := (buildDups cs).map mergeBucket
    ((results.map Prod.fst).sum,
      results.map Prod.snd ++ cs.filter (fun c => c.full_name = []))

/-- ASTExtractor::extractFunctionNameFromText: the trailing-identifier
extraction at the end of the function (`last identifier before the paren`). -/
def lastIdentBeforeParen (before : Str) : Str :=
  let stop := before.length
  let start := identStartFrom isIdentTilde before stop
  if start < stop then substr before start (stop - start) else []

/-- ASTExtractor::extractFunctionNameFromText. -/
def extractFunctionNameFromText (declarator_text : Str) : Str :=
  match strFind declarator_text (s "(") with
  | none => []
  | some paren_pos =>
    let before := trimTrailingSpace (substr declarator_text 0 paren_pos)
    if (strFind before (s "::")).isSome then before
    else
      match strFind before (s "operator") with
      | some op_pos =>
        let op_name := substr before op_pos (before.length - op_pos)
        if op_name ≠ [] ∧ op_name ≠ s "operator" then op_name
        else if op_name = s "operator" ∧ op_pos + 8 < before.length then
          let symbol_start := skipSpaces before (op_pos + 8)
          if symbol_start < before.length then
            s "operator" ++ substr before symbol_start (before.length - symbol_start)
          else lastIdentBeforeParen before
        else lastIdentBeforeParen before
      | none => lastIdentBeforeParen before

/-- Tree-sitter syntax tree node: a type tag, a byte span, a row span and the
ordered child list (anonymous token nodes such as `"("` included, as in the
`ts_node_child` traversal).  Parent links are threaded explicitly where the
source calls `ts_node_parent`. -/
inductive TSNode where
  | mk : (type : Str) → (startByte : Nat) → (endByte : Nat) → (startRow : Nat) →
         (endRow : Nat) → (children : List TSNode) → TSNode

/-- Projection for `ts_node_type`. -/
def TSNode.type : TSNode → Str
  | .mk t _ _ _ _ _ => t

/-- Projection for `ts_node_start_byte`. -/
def TSNode.startByte : TSNode → Nat
  | .mk _ sb _ _ _ _ => sb

/-- Projection for `ts_node_end_byte`. -/
def TSNode.endByte : TSNode → Nat
  | .mk _ _ eb _ _ _ => eb

/-- Projection for `ts_node_start_point().row`. -/
def TSNode.startRow : TSNode → Nat
  | .mk _ _ _ sr _ _ => sr

/-- Projection for `ts_node_end_point().row`. -/
def TSNode.endRow : TSNode → Nat
  | .mk _ _ _ _ er _ => er

/-- Projection for the ordered `ts_node_child` sequence. -/
def TSNode.children : TSNode → List TSNode
  | .mk _ _ _ _ _ cs => cs

/-- ASTExtractor::findChildByType: the first direct child with the given type
tag, `none` for the null node. -/
def findChildByType (parent : TSNode) (t : Str) : Option TSNode :=
  parent.children.find? (fun c => decide (c.type = t))

/-- ASTExtractor::getNodeText.  The end byte is clamped to the content length;
a start byte beyond the content makes `content.substr(start, ...)` throw
`std::out_of_range`, modelled as `none`.  When the clamped end precedes the
start, the unsigned difference `end - start` wraps to a huge count and
`substr` yields the whole suffix. -/
def getNodeText (node : TSNode) (content : Str) : Option Str :=
  let start := node.startByte
  let stop := min node.endByte content.length
  if start ≤ content.length then
    some (if stop < start then content.drop start else substr content start (stop - start))
  else none

/-- ASTExtractor::findNearbyDocstring: inspect the 100 bytes before the node's
start byte (skipped entirely when at most 100 bytes precede), take the last
`/**` in that window and return through the matching `*/` when it closes
before the node starts.  The outer `Option` is the exception channel of
`content.substr(node_start - 100, 100)`; the inner `Option` is the
`std::optional` result. -/
def findNearbyDocstring (node : TSNode) (content : Str) : Option (Option Str) :=
  let node_start := node.startByte
  if 100 < node_start then
    if node_start - 100 ≤ content.length then
      let before := substr content (node_start - 100) 100
      match strRFind before (s "/**") with
      | some javadoc_pos =>
        match strFindFrom content (s "*/") (node_start - 100 + javadoc_pos) with
        | some end_pos =>
          if end_pos < node_start then
            some (some (substr content (node_start - 100 + javadoc_pos)
                    (end_pos - (node_start - 100 + javadoc_pos) + 2)))
          else some none
        | none => some none
      | none => some none
    else none
  else some none

/-- Loop body of ASTExtractor::extractReturnType over the function node's
children: the first primitive/type/qualified/template type child is the return
type; reaching the `function_declarator` stops the scan with default `void`. -/
def extractReturnTypeGo (content : Str) : List TSNode → Option Str
  | [] => some (s "void")
  | c :: rest =>
    if c.type = s "primitive_type" ∨ c.type = s "type_identifier" ∨
       c.type = s "qualified_identifier" ∨ c.type = s "template_type" then
      getNodeText c content
    else if c.type = s "function_declarator" then some (s "void")
    else extractReturnTypeGo content rest

/-- ASTExtractor::extractReturnType. -/
def extractReturnType (function_node : TSNode) (content : Str) : Option Str :=
  extractReturnTypeGo content function_node.children

/-- ASTExtractor::extractTypeName: pointer and reference declarators wrap the
type recovered from their first child with a trailing `*` or `&`; anything
else falls back to the node's raw text. -/
def extractTypeName (type_node : TSNode) (content : Str) : Option Str :=
  match type_node with
  | .mk t sb eb sr er cs =>
    if t = s "primitive_type" ∨ t = s "type_identifier" then
      getNodeText (.mk t sb eb sr er cs) content
    else if t = s "pointer_declarator" then
      match cs with
      | base :: _ => (extractTypeName base content).map (fun r => r ++ s "*")
      | [] => getNodeText (.mk t sb eb sr er cs) content
    else if t = s "reference_declarator" then
      match cs with
      | base :: _ => (extractTypeName base content).map (fun r => r ++ s "&")
      | [] => getNodeText (.mk t sb eb sr er cs) content
    else getNodeText (.mk t sb eb sr er cs) content

/-- Extraction of one `parameter_declaration` child inside
ASTExtractor::extractParameters: the first child is the type node (text empty
when there is no child, matching the null check), the name comes from an
`identifier` child, and the default value is never populated. -/
def extractParamDecl (child : TSNode) (content : Str) : Option Parameter := do
  let ty ←
    match child.children.head? with
    | some type_node => extractTypeName type_node content
    | none => some []
  let nm ←
    match findChildByType child (s "identifier") with
    | some name_node => getNodeText name_node content
    | none => some []
  some { type := ty, name := nm, default_value := none }

/-- ASTExtractor::extractParameters. -/
def extractParameters (function_node : TSNode) (content : Str) : Option (List Parameter) :=
  match findChildByType function_node (s "function_declarator") with
  | none => some []
  | some declarator =>
    match findChildByType declarator (s "parameter_list") with
    | none => some []
    | some param_list =>
      param_list.children.foldlM
        (fun acc child =>
          if child.type = s "parameter_declaration" then
            (extractParamDecl child content).map (fun p => acc ++ [p])
          else some acc) []

/-- ASTExtractor::findMethodName: manual parse of the declarator text, in
order: destructor tilde, `operator`, then the trailing identifier before the
parenthesis. -/
def findMethodName (node : TSNode) (content : Str) : Option Str := do
  let full_text ← getNodeText node content
  match strFind full_text (s "(") with
  | none => some []
  | some paren_pos =>
    let before_paren := substr full_text 0 paren_pos
    match strFind before_paren (s "~") with
    | some tilde_pos => some (substr before_paren tilde_pos (before_paren.length - tilde_pos))
    | none =>
      match strFind before_paren (s "operator") with
      | some op_pos => some (substr before_paren op_pos (before_paren.length - op_pos))
      | none =>
        let bp := trimTrailingSpace before_paren
        if bp = [] then some []
        else
          let start := identStartFrom isIdentPlain bp bp.length
          if start < bp.length then some (substr bp start (bp.length - start)) else some []

/-- Name-recovery branch of ASTExtractor::extractFunction taken when the
`function_declarator` child exists: prefer a `qualified_identifier` child
(split on the last `::`, the qualified form overriding the structural scope);
otherwise fall back to the declarator text — for an empty or `()` declarator
search the whole function text for `operator`, else run
`extractFunctionNameFromText`; then a bare `identifier` child as last resort;
finally re-split any recovered qualified name and assemble `full_name`. -/
def extractFunctionNameWithDeclarator (node declarator : TSNode) (content namespace_path : Str)
    (c : CodeConstruct) : Option CodeConstruct := do
  match findChildByType declarator (s "qualified_identifier") with
  | some name_node => do
    let full_qualified_name ← getNodeText name_node content
    match strRFind full_qualified_name (s "::") with
    | some scope_pos =>
      some { c with
        namespace_path := substr full_qualified_name 0 scope_pos,
        name := substr full_qualified_name (scope_pos + 2)
                  (full_qualified_name.length - (scope_pos + 2)),
        full_name := full_qualified_name }
    | none =>
      some { c with
        name := full_qualified_name,
        full_name := if namespace_path = [] then full_qualified_name
                     else namespace_path ++ s "::" ++ full_qualified_name }
  | none => do
    let declarator_text ← getNodeText declarator content
    let c ←
      if declarator_text = [] ∨ declarator_text = s "()" then do
        let full_text ← getNodeText node content
        match strFind full_text (s "operator") with
        | some op_pos =>
          match strFindFrom full_text (s "(") op_pos with
          | some paren_pos =>
            let op_decl := trimTrailingSpace (substr full_text op_pos (paren_pos - op_pos))
            let c := { c with name := op_decl }
            if namespace_path ≠ [] ∧ (strFind c.name (s "::")).isNone then
              some { c with full_name := namespace_path ++ s "::" ++ c.name }
            else some c
          | none => some c
        | none => some c
      else
        some { c with name := extractFunctionNameFromText declarator_text }
    let c ←
      if c.name = [] then
        match findChildByType declarator (s "identifier") with
        | some simple_name_node => do
          let nm ← getNodeText simple_name_node content
          some { c with name := nm }
        | none => some c
      else some c
    if (strFind c.name (s "::")).isSome then
      match strRFind c.name (s "::") with
      | some scope_pos =>
        let nsp := substr c.name 0 scope_pos
        let method_name := substr c.name (scope_pos + 2) (c.name.length - (scope_pos + 2))
        some { c with namespace_path := nsp, name := method_name,
                      full_name := nsp ++ s "::" ++ method_name }
      | none => some c
    else
      some { c with full_name := if namespace_path = [] then c.name
                                 else namespace_path ++ s "::" ++ c.name }

/-- Name-recovery branch of ASTExtractor::extractFunction taken when the tree
has no `function_declarator` child (inline class-body methods and operators):
scan the full construct text for `operator` first, otherwise recover the
trailing identifier before the first parenthesis, rebuilding a qualified name
when it is immediately preceded by `::` and a class name. -/
def extractFunctionNameNoDeclarator (node : TSNode) (content namespace_path : Str)
    (c : CodeConstruct) : Option CodeConstruct := do
  let func_text ← getNodeText node content
  match strFind func_text (s "operator") with
  | some op_pos =>
    match strFindFrom func_text (s "(") op_pos with
    | some paren_pos =>
      let op_name := trimTrailingSpace (substr func_text op_pos (paren_pos - op_pos))
      some { c with name := op_name,
                    full_name := if namespace_path = [] then op_name
                                 else namespace_path ++ s "::" ++ op_name }
    | none => some c
  | none =>
    match strFind func_text (s "(") with
    | none => some c
    | some paren_pos =>
      let name_end := paren_pos - ((func_text.take paren_pos).reverse.takeWhile isSpaceC).length
      let name_start := identStartFrom isIdentTilde func_text name_end
      if name_start < name_end then
        let method_name := substr func_text name_start (name_end - name_start)
        if 2 ≤ name_start ∧ substr func_text (name_start - 2) 2 = s "::" then
          let class_start := identStartFrom isIdentPlain func_text (name_start - 2)
          let full_name := substr func_text class_start (name_end - class_start)
          match strRFind full_name (s "::") with
          | some scope_pos =>
            some { c with
              namespace_path := substr full_name 0 scope_pos,
              name := substr full_name (scope_pos + 2) (full_name.length - (scope_pos + 2)),
              full_name := full_name }
          | none => some c
        else
          some { c with name := method_name,
                        full_name := if namespace_path = [] then method_name
                                     else namespace_path ++ s "::" ++ method_name }
      else some c

/-- ASTExtractor::extractFunction. -/
def extractFunction (node : TSNode) (content filename namespace_path : Str) :
    Option CodeConstruct := do
  let c : CodeConstruct :=
    { type := ConstructType.Function, filename := filename, namespace_path := namespace_path }
  let c ←
    match findChildByType node (s "function_declarator") with
    | some declarator => extractFunctionNameWithDeclarator node declarator content namespace_path c
    | none => extractFunctionNameNoDeclarator node content namespace_path c
  let rt ← extractReturnType node content
  let ps ← extractParameters node content
  let doc ← findNearbyDocstring node content
  some { c with return_type := some rt, parameters := ps,
                start_line := node.startRow + 1, end_line := node.endRow + 1,
                docstring := doc }

/-- ASTExtractor::extractMethodDeclaration.  `parentNode` is
`ts_node_parent(node)` threaded explicitly (`none` for a null parent, in which
case `return_type` keeps its default empty optional). -/
def extractMethodDeclaration (node : TSNode) (parentNode : Option TSNode)
    (content filename namespace_path : Str) : Option CodeConstruct := do
  let c : CodeConstruct :=
    { type := ConstructType.Function, filename := filename, namespace_path := namespace_path }
  let name ←
    match findChildByType node (s "identifier") with
    | some name_node => getNodeText name_node content
    | none =>
      match findChildByType node (s "destructor_name") with
      | some destructor_node => getNodeText destructor_node content
      | none => findMethodName node content
  let rt ←
    match parentNode with
    | some parent => (extractReturnType parent content).map some
    | none => some none
  let ps ← extractParameters node content
  let doc ← findNearbyDocstring node content
  some { c with name := name,
                full_name := if namespace_path = [] then name
                             else namespace_path ++ s "::" ++ name,
                return_type := rt, parameters := ps,
                start_line := node.startRow + 1, end_line := node.endRow + 1,
                docstring := doc }

/-- ASTExtractor::extractClass. -/
def extractClass (node : TSNode) (content filename namespace_path : Str) :
    Option CodeConstruct := do
  let c : CodeConstruct :=
    { type := ConstructType.Class, filename := filename, namespace_path := namespace_path }
  let c ←
    match findChildByType node (s "type_identifier") with
    | some name_node => do
      let nm ← getNodeText name_node content
      some { c with name := nm,
                    full_name := if namespace_path = [] then nm
                                 else namespace_path ++ s "::" ++ nm }
    | none => some c
  let doc ← findNearbyDocstring node content
  some { c with start_line := node.startRow + 1, end_line := node.endRow + 1,
                docstring := doc }

/-- ASTExtractor::extractStruct. -/
def extractStruct (node : TSNode) (content filename namespace_path : Str) :
    Option CodeConstruct := do
  let c : CodeConstruct :=
    { type := ConstructType.Struct, filename := filename, namespace_path := namespace_path }
  let c ←
    match findChildByType node (s "type_identifier") with
    | some name_node => do
      let nm ← getNodeText name_node content
      some { c with name := nm,
                    full_name := if namespace_path = [] then nm
                                 else namespace_path ++ s "::" ++ nm }
    | none => some c
  let doc ← findNearbyDocstring node content
  some { c with start_line := node.startRow + 1, end_line := node.endRow + 1,
                docstring := doc }

/-- ASTExtractor::extractEnum. -/
def extractEnum (node : TSNode) (content filename namespace_path : Str) :
    Option CodeConstruct := do
  let c : CodeConstruct :=
    { type := ConstructType.Enum, filename := filename, namespace_path := namespace_path }
  let c ←
    match findChildByType node (s "type_identifier") with
    | some name_node => do
      let nm ← getNodeText name_node content
      some { c with name := nm,
                    full_name := if namespace_path = [] then nm
                                 else namespace_path ++ s "::" ++ nm }
    | none => some c
  let doc ← findNearbyDocstring node content
  some { c with start_line := node.startRow + 1, end_line := node.endRow + 1,
                docstring := doc }

/-- ASTExtractor::extractNamespace. -/
def extractNamespace (node : TSNode) (content filename namespace_path : Str) :
    Option CodeConstruct := do
  let c : CodeConstruct :=
    { type := ConstructType.Namespace, filename := filename, namespace_path := namespace_path }
  let c ←
    match findChildByType node (s "identifier") with
    | some name_node => do
      let nm ← getNodeText name_node content
      some { c with name := nm,
                    full_name := if namespace_path = [] then nm
                                 else namespace_path ++ s "::" ++ nm }
    | none => some c
  let doc ← findNearbyDocstring node content
  some { c with start_line := node.startRow + 1, end_line := node.endRow + 1,
                docstring := doc }

/-- Child scope computation in the traversal loop of
ASTExtractor::extractFromNode: entering a namespace or class/struct appends
that construct's own name to the scope (constant across the child loop, so
hoisted before it). -/
def childScope (node : TSNode) (content namespace_path : Str) : Option Str :=
  if node.type = s "namespace_definition" then
    match findChildByType node (s "identifier") with
    | some name_node =>
      (getNodeText name_node content).map
        (fun ns_name => if namespace_path = [] then ns_name
                        else namespace_path ++ s "::" ++ ns_name)
    | none => some namespace_path
  else if node.type = s "class_specifier" ∨ node.type = s "struct_specifier" then
    match findChildByType node (s "type_identifier") with
    | some name_node =>
      (getNodeText name_node content).map
        (fun class_name => if namespace_path = [] then class_name
                           else namespace_path ++ s "::" ++ class_name)
    | none => some namespace_path
  else some namespace_path

mutual

/-- ASTExtractor::extractFromNode, returning the constructs contributed by
this node (appended to the output vector in the source).  `parentNode` is the
traversal parent, needed by extractMethodDeclaration.  Function definitions
containing the `= delete` marker are skipped without recursion; function
definitions and (claimed) declarators never recurse into children. -/
def extractFromNode (parentNode : Option TSNode) (node : TSNode)
    (content filename namespace_path : Str) : Option (List CodeConstruct) :=
  match node with
  | .mk nodeTy sb eb sr er cs =>
    let node := TSNode.mk nodeTy sb eb sr er cs
    if nodeTy = s "function_definition" then do
      let node_text ← getNodeText node content
      if (strFind node_text (s "= delete")).isSome then
        some []
      else do
        let function_construct ← extractFunction node content filename namespace_path
        some [function_construct]
    else if nodeTy = s "function_declarator" then do
      let method_construct ←
        extractMethodDeclaration node parentNode content filename namespace_path
      some [method_construct]
    else
      match if nodeTy = s "declaration" then findChildByType node (s "function_declarator")
            else none with
      | some declarator => do
        let method_construct ←
          extractMethodDeclaration declarator (some node) content filename namespace_path
        some [method_construct]
      | none => do
        let own ←
          if nodeTy = s "class_specifier" then
            (extractClass node content filename namespace_path).map (fun c => [c])
          else if nodeTy = s "struct_specifier" then
            (extractStruct node content filename namespace_path).map (fun c => [c])
          else if nodeTy = s "enum_specifier" then
            (extractEnum node content filename namespace_path).map (fun c => [c])
          else if nodeTy = s "namespace_definition" then
            (extractNamespace node content filename namespace_path).map (fun c => [c])
          else some []
        let child_namespace_path ← childScope node content namespace_path
        let rest ← extractChildren node cs content filename child_namespace_path
        some (own ++ rest)

/-- Child loop of ASTExtractor::extractFromNode. -/
def extractChildren (parentNode : TSNode) (cs : List TSNode)
    (content filename namespace_path : Str) : Option (List CodeConstruct) :=
  match cs with
  | [] => some []
  | c :: rest => do
    let first ← extractFromNode (some parentNode) c content filename namespace_path
    let more ← extractChildren parentNode rest content filename namespace_path
    some (first ++ more)

end

/-- ASTExtractor::extractConstructs: traverse from the root (whose parent is
null) and merge duplicate constructs; the conflict count is only logged. -/
def extractConstructs (root : TSNode) (content filename : Str) :
    Option (List CodeConstruct) := do
  let constructs ← extractFromNode none root content filename []
  some (mergeDuplicateConstructs constructs).2

/-- Source content of the end-to-end scenario: a one-line Javadoc comment
followed by a one-line function definition. -/
def addContent : Str :=
  s "/** Add two numbers */\nint add(int a, int b) { return a + b; }"

/-- The syntax tree tree-sitter-cpp produces for `addContent`: a comment node
and a function definition with declarator, parameter list (anonymous
punctuation nodes included) and body. -/
def addTree : TSNode :=
  .mk (s "translation_unit") 0 62 0 1
    [ .mk (s "comment") 0 22 0 0 [],
      .mk (s "function_definition") 23 62 1 1
        [ .mk (s "primitive_type") 23 26 1 1 [],
          .mk (s "function_declarator") 27 44 1 1
            [ .mk (s "identifier") 27 30 1 1 [],
              .mk (s "parameter_list") 30 44 1 1
                [ .mk (s "(") 30 31 1 1 [],
                  .mk (s "parameter_declaration") 31 36 1 1
                    [ .mk (s "primitive_type") 31 34 1 1 [],
                      .mk (s "identifier") 35 36 1 1 [] ],
                  .mk (s ",") 36 37 1 1 [],
                  .mk (s "parameter_declaration") 38 43 1 1
                    [ .mk (s "primitive_type") 38 41 1 1 [],
                      .mk (s "identifier") 42 43 1 1 [] ],
                  .mk (s ")") 43 44 1 1 [] ] ],
          .mk (s "compound_statement") 45 62 1 1 [] ] ]

/-- The single construct the extractor yields for `addContent`. -/
def addConstruct : CodeConstruct :=
  { type := ConstructType.Function, name := s "add", full_name := s "add",
    namespace_path := [], return_type := some (s "int"),
    parameters := [ { type := s "int", name := s "a" },
                    { type := s "int", name := s "b" } ],
    docstring := none, start_line := 2, end_line := 2, filename := s "test.cpp" }

/-- The `"<filename>:<start_line>"` location string recorded for a merged
occurrence. -/
def locOf (c : CodeConstruct) : Str :=
  c.filename ++ s ":" ++ natToStr c.start_line

/-- The non-empty docstrings of a construct sequence, in order: exactly the
fragments the merging loop pushes onto `merged_docstrings`. -/
def nonEmptyDocs (cs : List CodeConstruct) : List Str :=
  cs.filterMap (fun c =>
    match c.docstring with
    | some d => if d = [] then none else some d
    | none => none)

/-- The constructs of `cs` whose qualified name is `q`, in discovery order. -/
def occurrences (cs : List CodeConstruct) (q : Str) : List CodeConstruct :=
  cs.filter (fun c => decide (c.full_name = q))

/-- The indexed occurrences of qualified name `q`, in discovery order. -/
def occIdx (cs : List CodeConstruct) (q : Str) : List (Nat × CodeConstruct) :=
  cs.enum.filter (fun ic => decide (ic.2.full_name = q))

mutual

/-- Well-formedness of a tree against a content length: every node's byte
span lies within the content.  This is the precondition under which the C++
extractor performs no out-of-range `substr` call. -/
def nodeWFb (len : Nat) : TSNode → Bool
  | .mk _ sb eb _ _ cs => decide (sb ≤ eb) && decide (eb ≤ len) && nodesWFb len cs

/-- Well-formedness of a forest (see `nodeWFb`). -/
def nodesWFb (len : Nat) : List TSNode → Bool
  | [] => true
  | c :: rest => nodeWFb len c && nodesWFb len rest

end

/-- DocAssociator::getNameNode, special case: scan the `function_declarator`
children of a function definition, preferring a `qualified_identifier`
grandchild, then an `identifier` grandchild, then the next declarator child. -/
def getNameNodeFnDecl : List TSNode → Option TSNode
  | [] => none
  | c :: rest =>
    if c.type = s "function_declarator" then
      match findChildByType c (s "qualified_identifier") with
      | some g => some g
      | none =>
        match findChildByType c (s "identifier") with
        | some g => some g
        | none => getNameNodeFnDecl rest
    else getNameNodeFnDecl rest

/-- DocAssociator::getNameNode. -/
def getNameNode (node : TSNode) : Option TSNode :=
  if node.type = s "function_definition" then
    match getNameNodeFnDecl node.children with
    | some g => some g
    | none =>
      node.children.find? (fun c =>
        decide (c.type = s "identifier") || decide (c.type = s "type_identifier"))
  else
    node.children.find? (fun c =>
      decide (c.type = s "identifier") || decide (c.type = s "type_identifier"))

/-- DocAssociator::extractSymbolName (an absent name node yields the empty
string; the outer `Option` is the `getNodeText` exception channel). -/
def extractSymbolName (node : TSNode) (content : Str) : Option Str :=
  match getNameNode node with
  | none => some []
  | some name_node => getNodeText name_node content

/-- DocAssociator::extractNamespacePath.  The C++ loop climbs parent links
from the node to the root, prepending the name of every namespace or class
found; here the chain from the root down to the node (node included) is
supplied explicitly and folded in order, which builds the same sequence. -/
def extractNamespacePath (chain : List TSNode) (content : Str) : Option Str := do
  let parts ← chain.foldlM
    (fun acc current =>
      if current.type = s "namespace_definition" ∨ current.type = s "class_specifier" then
        match getNameNode current with
        | some name_node => (getNodeText name_node content).map (fun n => acc ++ [n])
        | none => some acc
      else some acc) []
  some (joinSep (s "::") parts)

mutual

/-- The matches of the structural query of
DocAssociator::findFollowingDeclaration, in pre-order (document order):
every node of one of the five queried construct types, paired with its
root-to-node ancestor chain (node included) so that the parent walk of
`extractNamespacePath` can be replayed. -/
def collectDecls (anc : List TSNode) : TSNode → List (TSNode × List TSNode)
  | .mk ty sb eb sr er cs =>
    let node := TSNode.mk ty sb eb sr er cs
    let here :=
      if ty = s "function_definition" ∨ ty = s "class_specifier" ∨
         ty = s "namespace_definition" ∨ ty = s "struct_specifier" ∨
         ty = s "enum_specifier" then
        [(node, anc ++ [node])]
      else []
    here ++ collectDeclsForest (anc ++ [node]) cs

/-- Pre-order query collection over a forest (see `collectDecls`). -/
def collectDeclsForest (anc : List TSNode) : List TSNode → List (TSNode × List TSNode)
  | [] => []
  | c :: rest => collectDecls anc c ++ collectDeclsForest anc rest

end

/-- DocAssociator::findFollowingDeclaration: among the query matches, keep the
node whose start byte exceeds the block's location byte offset with the
smallest distance, first match winning ties; `best_match` starts null and
`best_distance` starts at `UINT32_MAX`. -/
def findFollowingDeclaration (root : TSNode) (byte_offset : Nat) :
    Option (TSNode × List TSNode) :=
  ((collectDecls [] root).foldl
    (fun best m =>
      if byte_offset < m.1.startByte ∧ m.1.startByte - byte_offset < best.2 then
        (some m, m.1.startByte - byte_offset)
      else best)
    (none, 4294967295)).1

/-- Modelled from the spec (§4.3 Doc Association): the selection rule stated
by the specification, namely the queried node with the smallest positive
difference between its start byte and the comment's end byte (`lastByte` is
the index of the final byte of the comment), ties broken by the first match
in traversal order.  Compared against `findFollowingDeclaration`, which
measures from the block's location byte offset. -/
def nearestFollowingSpec (lastByte : Nat) (ms : List (TSNode × List TSNode)) :
    Option (TSNode × List TSNode) :=
  (ms.foldl
    (fun best m =>
      if lastByte < m.1.startByte ∧ m.1.startByte - lastByte < best.2 then
        (some m, m.1.startByte - lastByte)
      else best)
    (none, 4294967295)).1

/-- DocstringBlock from docstrings.h, restricted to the fields the associator
reads or writes (`location` is its `byte_offset`); the parser-only fields
(params map, tags, line/column, overrides) are carried nowhere here.  All
association fields default to empty, as in a default-constructed block. -/
structure DocstringBlock where
  raw_content : Str := []
  description : Str := []
  return_desc : Str := []
  location : Nat := 0
  associated_node : Option (TSNode × List TSNode) := none
  namespace_path : Str := []
  symbol_name : Str := []
  symbol_type : Str := []

/-- Body of the per-block loop of DocAssociator::associateDocsWithNodes: a
found following node fills the association fields; otherwise the block is
left untouched. -/
def associateOne (root : TSNode) (content : Str) (block : DocstringBlock) :
    Option DocstringBlock :=
  match findFollowingDeclaration root block.location with
  | none => some block
  | some m => do
    let nsp ← extractNamespacePath m.2 content
    let nm ← extractSymbolName m.1 content
    some { block with associated_node := some m, namespace_path := nsp,
                      symbol_name := nm, symbol_type := m.1.type }

/-- DocAssociator::associateDocsWithNodes. -/
def associateDocsWithNodes (blocks : List DocstringBlock) (root : TSNode)
    (content : Str) : Option (List DocstringBlock) :=
  blocks.mapM (associateOne root content)

/-- Two occurrences of qualified name `f` with docstrings `A` and `B`,
declaration first. -/
def w1a : CodeConstruct :=
  { name := s "f", full_name := s "f", docstring := some (s "A"),
    filename := s "a.h", start_line := 3 }

/-- Second occurrence for the merge scenario (see `w1a`). -/
def w1b : CodeConstruct :=
  { name := s "f", full_name := s "f", docstring := some (s "B"),
    filename := s "a.cpp", start_line := 14 }

/-- Two occurrences of qualified name `g` whose parameter counts differ. -/
def w2a : CodeConstruct :=
  { name := s "g", full_name := s "g",
    parameters := [{ type := s "int", name := s "x" }], filename := s "b.h" }

/-- Second occurrence for the conflict scenario (see `w2a`). -/
def w2b : CodeConstruct :=
  { name := s "g", full_name := s "g", parameters := [], filename := s "b.cpp" }

/-- Construct named `b`, seen first in the ordering counterexample. -/
def cNameB : CodeConstruct := { name := s "b", full_name := s "b" }

/-- Construct named `a`, seen second in the ordering counterexample. -/
def cNameA : CodeConstruct := { name := s "a", full_name := s "a" }

/-- Source text of a deleted assignment operator. -/
def delContent : Str := s "A& operator=(const A&) = delete;"

/-- Function-definition node covering `delContent`. -/
def delNode : TSNode := .mk (s "function_definition") 0 delContent.length 0 0 []

/-- Source text of a bare method declarator with one parameter. -/
def mdContent : Str := s "foo(int x)"

/-- Bare `function_declarator` node for `mdContent`: it has a
`parameter_list` child but (being the declarator itself) no
`function_declarator` child. -/
def mdNode : TSNode :=
  .mk (s "function_declarator") 0 10 0 0
    [ .mk (s "identifier") 0 3 0 0 [],
      .mk (s "parameter_list") 3 10 0 0
        [ .mk (s "(") 3 4 0 0 [],
          .mk (s "parameter_declaration") 4 9 0 0
            [ .mk (s "primitive_type") 4 7 0 0 [],
              .mk (s "identifier") 8 9 0 0 [] ],
          .mk (s ")") 9 10 0 0 [] ] ]

/-- The construct `extractMethodDeclaration` yields for `mdNode` (no parent,
so the return type stays absent; no declarator child, so no parameters). -/
def mdConstruct : CodeConstruct :=
  { type := ConstructType.Function, name := s "foo", full_name := s "foo",
    return_type := none, parameters := [], start_line := 1, end_line := 1,
    filename := s "iface.h" }

/-- Source text for the totality witness. -/
def w9Content : Str := s "namespace ns { int x; }"

/-- Well-formed tree over `w9Content`. -/
def w9Tree : TSNode :=
  .mk (s "translation_unit") 0 23 0 0
    [ .mk (s "namespace_definition") 0 23 0 0
        [ .mk (s "identifier") 10 12 0 0 [] ] ]

/-- Tree for the doc-association witness: a comment spanning bytes `[0, 10)`
followed by a function definition at byte 12 and a class at byte 32. -/
def c8Tree : TSNode :=
  .mk (s "translation_unit") 0 50 0 5
    [ .mk (s "comment") 0 10 0 0 [],
      .mk (s "function_definition") 12 30 1 2 [],
      .mk (s "class_specifier") 32 49 3 4 [] ]

/-- Comment block located at byte 0 (comment end byte 10) for `c8Tree`. -/
def c8Block : DocstringBlock := { raw_content := s "/** doc */", location := 0 }

/-- Ordering abbreviation for bucket keys. -/
def keyLt (a b : Str) : Prop := strLt a b = true

theorem strLt_irrefl (a : Str) : strLt a a = false := by
  induction a with
  | nil => rfl
  | cons x xs ih => simp [strLt, ih, lt_irrefl]

theorem strLt_trans {a b c : Str} (hab : strLt a b = true) (hbc : strLt b c = true) :
    strLt a c = true := by
  induction a generalizing b c with
  | nil =>
    cases b with
    | nil => simp [strLt] at hab
    | cons y ys =>
      cases c with
      | nil => simp [strLt] at hbc
      | cons z zs => rfl
  | cons x xs ih =>
    cases b with
    | nil => simp [strLt] at hab
    | cons y ys =>
      cases c with
      | nil => simp [strLt] at hbc
      | cons z zs =>
        simp only [strLt] at hab hbc ⊢
        rcases lt_trichotomy x y with h1 | h1 | h1
        · rcases lt_trichotomy y z with h2 | h2 | h2
          · simp [lt_trans h1 h2]
          · subst h2; simp [h1]
          · rw [if_neg (asymm h2), if_pos h2] at hbc; simp at hbc
        · subst h1
          rw [if_neg (lt_irrefl x), if_neg (lt_irrefl x)] at hab
          rcases lt_trichotomy x z with h2 | h2 | h2
          · simp [h2]
          · subst h2
            rw [if_neg (lt_irrefl x), if_neg (lt_irrefl x)] at hbc ⊢
            exact ih hab hbc
          · rw [if_neg (asymm h2), if_pos h2] at hbc; simp at hbc
        · rw [if_neg (asymm h1), if_pos h1] at hab; simp at hab

theorem strLt_conn {a b : Str} (hne : a ≠ b) (hab : strLt a b = false) :
    strLt b a = true := by
  induction a generalizing b with
  | nil =>
    cases b with
    | nil => exact absurd rfl hne
    | cons y ys => simp [strLt] at hab
  | cons x xs ih =>
    cases b with
    | nil => rfl
    | cons y ys =>
      simp only [strLt] at hab ⊢
      rcases lt_trichotomy x y with h1 | h1 | h1
      · rw [if_pos h1] at hab; simp at hab
      · subst h1
        rw [if_neg (lt_irrefl x), if_neg (lt_irrefl x)] at hab ⊢
        refine ih ?_ hab
        intro h; exact hne (by rw [h])
      · simp [h1]

theorem mem_insertDup {m : List DupEntry} {k : Str} {p} {e : DupEntry}
    (he : e ∈ insertDup m k p) : e.1 = k ∨ e ∈ m := by
  induction m with
  | nil =>
    simp only [insertDup, List.mem_singleton] at he
    subst he; exact Or.inl rfl
  | cons hd rest ih =>
    obtain ⟨k2, ps⟩ := hd
    simp only [insertDup] at he
    split at he
    · rename_i hk
      rcases List.mem_cons.mp he with h | h
      · subst h; exact Or.inl hk.symm
      · exact Or.inr (List.mem_cons_of_mem _ h)
    · split at he
      · rcases List.mem_cons.mp he with h | h
        · subst h; exact Or.inl rfl
        · exact Or.inr h
      · rcases List.mem_cons.mp he with h | h
        · subst h; exact Or.inr (List.mem_cons_self _ _)
        · rcases ih h with h2 | h2
          · exact Or.inl h2
          · exact Or.inr (List.mem_cons_of_mem _ h2)

theorem mem_keys_insertDup {m : List DupEntry} {k b : Str} {p}
    (hb : b ∈ (insertDup m k p).map Prod.fst) : b = k ∨ b ∈ m.map Prod.fst := by
  rcases List.mem_map.mp hb with ⟨e, he, rfl⟩
  rcases mem_insertDup he with h | h
  · exact Or.inl h
  · exact Or.inr (List.mem_map_of_mem _ h)

theorem pairwise_keys_insertDup {m : List DupEntry} {k : Str} {p}
    (hm : (m.map Prod.fst).Pairwise keyLt) :
    ((insertDup m k p).map Prod.fst).Pairwise keyLt := by
  induction m with
  | nil => simp [insertDup]
  | cons hd rest ih =>
    obtain ⟨k2, ps⟩ := hd
    simp only [List.map_cons, List.pairwise_cons] at hm
    obtain ⟨hlt, hrest⟩ := hm
    simp only [insertDup]
    split
    · simp only [List.map_cons, List.pairwise_cons]
      exact ⟨hlt, hrest⟩
    · split
      · rename_i hne hklt
        simp only [List.map_cons, List.pairwise_cons]
        refine ⟨?_, hlt, hrest⟩
        intro b hb
        rcases List.mem_cons.mp hb with rfl | hb2
        · exact hklt
        · exact strLt_trans hklt (hlt b hb2)
      · rename_i hne hnlt
        simp only [List.map_cons, List.pairwise_cons]
        refine ⟨?_, ih hrest⟩
        intro b hb
        rcases mem_keys_insertDup hb with rfl | hb2
        · exact strLt_conn (fun h => hne h) (Bool.eq_false_iff.mpr hnlt)
        · exact hlt b hb2

theorem nodup_of_pairwise_keyLt {l : List Str} (h : l.Pairwise keyLt) : l.Nodup := by
  refine h.imp ?_
  intro a b hab he
  subst he
  rw [keyLt, strLt_irrefl] at hab
  exact Bool.false_ne_true hab

theorem lookupDup_eq_nil_of_forall_lt {m : List DupEntry} {k : Str}
    (h : ∀ e ∈ m, strLt k e.1 = true) : lookupDup m k = [] := by
  induction m with
  | nil => rfl
  | cons hd rest ih =>
    obtain ⟨k2, ps⟩ := hd
    simp only [lookupDup]
    rw [if_neg]
    · exact ih (fun e he => h e (List.mem_cons_of_mem _ he))
    · intro hk
      subst hk
      have := h (k, ps) (List.mem_cons_self _ _)
      rw [strLt_irrefl] at this
      exact Bool.false_ne_true this

theorem lookupDup_insertDup_self {m : List DupEntry} {k : Str} {p}
    (hm : (m.map Prod.fst).Pairwise keyLt) :
    lookupDup (insertDup m k p) k = lookupDup m k ++ [p] := by
  induction m with
  | nil => simp [insertDup, lookupDup]
  | cons hd rest ih =>
    obtain ⟨k2, ps⟩ := hd
    simp only [List.map_cons, List.pairwise_cons] at hm
    obtain ⟨hlt, hrest⟩ := hm
    simp only [insertDup]
    split
    · rename_i hk
      simp only [lookupDup, if_pos hk]
    · split
      · rename_i hne hklt
        have hnil : lookupDup ((k2, ps) :: rest) k = [] := by
          apply lookupDup_eq_nil_of_forall_lt
          intro e he
          rcases List.mem_cons.mp he with rfl | he2
          · exact hklt
          · exact strLt_trans hklt (hlt e.1 (List.mem_map_of_mem _ he2))
        rw [hnil]
        simp [lookupDup]
      · rename_i hne hnlt
        simp only [lookupDup, if_neg hne]
        exact ih hrest

theorem lookupDup_insertDup_ne {m : List DupEntry} {k q : Str} {p} (hq : q ≠ k) :
    lookupDup (insertDup m k p) q = lookupDup m q := by
  induction m with
  | nil => simp [insertDup, lookupDup, hq]
  | cons hd rest ih =>
    obtain ⟨k2, ps⟩ := hd
    simp only [insertDup]
    split
    · rename_i hk
      subst hk
      simp only [lookupDup, if_neg hq]
    · split
      · simp only [lookupDup, if_neg hq]
      · simp only [lookupDup]
        split
        · rfl
        · exact ih

theorem lookupDup_of_mem {m : List DupEntry} (hnd : (m.map Prod.fst).Nodup)
    {k : Str} {ps} (hmem : (k, ps) ∈ m) : lookupDup m k = ps := by
  induction m with
  | nil => simp at hmem
  | cons hd rest ih =>
    obtain ⟨k2, ps2⟩ := hd
    simp only [List.map_cons, List.nodup_cons] at hnd
    obtain ⟨hk2, hrest⟩ := hnd
    rcases List.mem_cons.mp hmem with h | h
    · injection h with h1 h2
      subst h1; subst h2
      simp [lookupDup]
    · simp only [lookupDup]
      rw [if_neg]
      · exact ih hrest h
      · intro hk
        subst hk
        exact hk2 (List.mem_map_of_mem _ h)

theorem mem_keys_of_lookupDup_ne_nil {m : List DupEntry} {k : Str}
    (h : lookupDup m k ≠ []) : k ∈ m.map Prod.fst := by
  induction m with
  | nil => simp [lookupDup] at h
  | cons hd rest ih =>
    obtain ⟨k2, ps⟩ := hd
    simp only [lookupDup] at h
    by_cases hk : k = k2
    · subst hk; simp
    · rw [if_neg hk] at h
      simp only [List.map_cons, List.mem_cons]
      exact Or.inr (ih h)

theorem pairwise_keys_dupfold :
    ∀ (l : List (Nat × CodeConstruct)) (m : List DupEntry),
      (m.map Prod.fst).Pairwise keyLt →
      ((l.foldl dupStep m).map Prod.fst).Pairwise keyLt := by
  intro l
  induction l with
  | nil => intro m hm; simpa using hm
  | cons ic rest ih =>
    intro m hm
    simp only [List.foldl_cons]
    apply ih
    unfold dupStep
    split
    · exact hm
    · exact pairwise_keys_insertDup hm

theorem lookupDup_dupfold (q : Str) (hq : q ≠ []) :
    ∀ (l : List (Nat × CodeConstruct)) (m : List DupEntry),
      (m.map Prod.fst).Pairwise keyLt →
      lookupDup (l.foldl dupStep m) q =
        lookupDup m q ++ l.filter (fun ic => decide (ic.2.full_name = q)) := by
  intro l
  induction l with
  | nil => intro m hm; simp
  | cons ic rest ih =>
    intro m hm
    simp only [List.foldl_cons, List.filter_cons]
    by_cases hname : ic.2.full_name = q
    · have hne : ic.2.full_name ≠ [] := by rw [hname]; exact hq
      rw [show dupStep m ic = insertDup m ic.2.full_name ic from by
            unfold dupStep; rw [if_neg hne]]
      rw [ih _ (pairwise_keys_insertDup hm)]
      rw [hname, lookupDup_insertDup_self hm]
      simp [hname]
    · by_cases hnil : ic.2.full_name = []
      · rw [show dupStep m ic = m from by unfold dupStep; rw [if_pos hnil]]
        rw [ih _ hm]
        simp [hname]
      · rw [show dupStep m ic = insertDup m ic.2.full_name ic from by
              unfold dupStep; rw [if_neg hnil]]
        rw [ih _ (pairwise_keys_insertDup hm)]
        rw [lookupDup_insertDup_ne (fun h => hname h.symm)]
        simp [hname]

theorem pairwise_keys_buildDups (cs : List CodeConstruct) :
    ((buildDups cs).map Prod.fst).Pairwise keyLt :=
  pairwise_keys_dupfold _ [] (by simp)

theorem nodup_keys_buildDups (cs : List CodeConstruct) :
    ((buildDups cs).map Prod.fst).Nodup :=
  nodup_of_pairwise_keyLt (pairwise_keys_buildDups cs)

theorem lookupDup_buildDups (cs : List CodeConstruct) (q : Str) (hq : q ≠ []) :
    lookupDup (buildDups cs) q = occIdx cs q := by
  unfold buildDups occIdx
  rw [lookupDup_dupfold q hq _ [] (by simp)]
  simp [lookupDup]

theorem keys_ne_nil_dupfold :
    ∀ (l : List (Nat × CodeConstruct)) (m : List DupEntry),
      (∀ e ∈ m, e.1 ≠ []) → ∀ e ∈ l.foldl dupStep m, e.1 ≠ [] := by
  intro l
  induction l with
  | nil => intro m hm; simpa using hm
  | cons ic rest ih =>
    intro m hm
    simp only [List.foldl_cons]
    apply ih
    intro e he
    unfold dupStep at he
    split at he
    · exact hm e he
    · rename_i hne
      rcases mem_insertDup he with h | h
      · rw [h]; exact hne
      · exact hm e h

theorem snd_ne_nil_insertDup {m : List DupEntry} {k : Str} {p} {e : DupEntry}
    (hm : ∀ e2 ∈ m, e2.2 ≠ []) (he : e ∈ insertDup m k p) : e.2 ≠ [] := by
  induction m with
  | nil =>
    simp only [insertDup, List.mem_singleton] at he
    subst he; simp
  | cons hd rest ih =>
    obtain ⟨k2, ps⟩ := hd
    simp only [insertDup] at he
    split at he
    · rcases List.mem_cons.mp he with h | h
      · subst h; simp
      · exact hm _ (List.mem_cons_of_mem _ h)
    · split at he
      · rcases List.mem_cons.mp he with h | h
        · subst h; simp
        · exact hm _ h
      · rcases List.mem_cons.mp he with h | h
        · subst h; exact hm _ (List.mem_cons_self _ _)
        · exact ih (fun e2 he2 => hm e2 (List.mem_cons_of_mem _ he2)) h

theorem snd_ne_nil_dupfold :
    ∀ (l : List (Nat × CodeConstruct)) (m : List DupEntry),
      (∀ e ∈ m, e.2 ≠ []) → ∀ e ∈ l.foldl dupStep m, e.2 ≠ [] := by
  intro l
  induction l with
  | nil => intro m hm; simpa using hm
  | cons ic rest ih =>
    intro m hm
    simp only [List.foldl_cons]
    apply ih
    intro e he
    unfold dupStep at he
    split at he
    · exact hm e he
    · exact snd_ne_nil_insertDup hm he

theorem buildDups_entry (cs : List CodeConstruct) {k : Str} {ps}
    (he : (k, ps) ∈ buildDups cs) :
    k ≠ [] ∧ ps = occIdx cs k ∧ ps ≠ [] := by
  have h1 : k ≠ [] := keys_ne_nil_dupfold _ [] (by simp) (k, ps) he
  have h2 : lookupDup (buildDups cs) k = ps :=
    lookupDup_of_mem (nodup_keys_buildDups cs) he
  have h3 : ps ≠ [] := snd_ne_nil_dupfold _ [] (by simp) (k, ps) he
  exact ⟨h1, by rw [← h2, lookupDup_buildDups cs k h1], h3⟩

theorem buildDups_mem_of_occ (cs : List CodeConstruct) (q : Str) (hq : q ≠ [])
    (hocc : occIdx cs q ≠ []) : (q, occIdx cs q) ∈ buildDups cs := by
  have hl : lookupDup (buildDups cs) q ≠ [] := by
    rw [lookupDup_buildDups cs q hq]; exact hocc
  rcases List.mem_map.mp (mem_keys_of_lookupDup_ne_nil hl) with ⟨e, he, hfst⟩
  obtain ⟨k, ps⟩ := e
  rcases buildDups_entry cs he with ⟨_, hps, _⟩
  cases hfst
  rw [← hps] at *
  rw [hps] at he ⊢
  exact he

theorem enumFrom_filter_map_snd (p : CodeConstruct → Bool) :
    ∀ (n : Nat) (cs : List CodeConstruct),
      ((List.enumFrom n cs).filter (fun ic => p ic.2)).map Prod.snd = cs.filter p := by
  intro n cs
  induction cs generalizing n with
  | nil => rfl
  | cons c rest ih =>
    simp only [List.enumFrom, List.filter_cons]
    by_cases hp : p c
    · simp only [hp, if_pos]
      simp only [List.map_cons]
      rw [ih]
    · simp only [hp]
      simpa using ih (n + 1)

theorem occIdx_map_snd (cs : List CodeConstruct) (q : Str) :
    (occIdx cs q).map Prod.snd = occurrences cs q := by
  unfold occIdx occurrences
  rw [show cs.enum = List.enumFrom 0 cs from rfl]
  exact enumFrom_filter_map_snd (fun c => decide (c.full_name = q)) 0 cs

theorem occIdx_mem {cs : List CodeConstruct} {q : Str} {ic}
    (h : ic ∈ occIdx cs q) : ic.2.full_name = q := by
  unfold occIdx at h
  have := List.of_mem_filter h
  simpa using this

theorem le_fst_of_mem_enumFrom {α : Type} {b : Nat × α} :
    ∀ {m : Nat} {l : List α}, b ∈ List.enumFrom m l → m ≤ b.1 := by
  intro m l
  induction l generalizing m with
  | nil => intro h; simp [List.enumFrom] at h
  | cons x xs ih =>
    intro h
    simp only [List.enumFrom, List.mem_cons] at h
    rcases h with rfl | h
    · exact le_refl _
    · exact le_trans (Nat.le_succ m) (ih h)

theorem pairwise_fst_enumFrom {α : Type} :
    ∀ (m : Nat) (l : List α),
      (List.enumFrom m l).Pairwise (fun a b => a.1 < b.1) := by
  intro m l
  induction l generalizing m with
  | nil => simp [List.enumFrom]
  | cons x xs ih =>
    simp only [List.enumFrom, List.pairwise_cons]
    refine ⟨?_, ih (m + 1)⟩
    intro b hb
    exact lt_of_lt_of_le (Nat.lt_succ_self m) (le_fst_of_mem_enumFrom hb)

theorem occIdx_pairwise_fst (cs : List CodeConstruct) (q : Str) :
    (occIdx cs q).Pairwise (fun a b => a.1 < b.1) := by
  unfold occIdx
  exact List.Pairwise.sublist (List.filter_sublist _) (pairwise_fst_enumFrom 0 cs)

theorem mergeStep_fst_fields (i0 : Nat) (acc : CodeConstruct × Nat) (p : Nat × CodeConstruct) :
    (mergeStep i0 acc p).1.full_name = acc.1.full_name ∧
    (mergeStep i0 acc p).1.parameters = acc.1.parameters ∧
    (mergeStep i0 acc p).1.docstring = acc.1.docstring ∧
    (mergeStep i0 acc p).1.is_merged = acc.1.is_merged ∧
    (mergeStep i0 acc p).1.name = acc.1.name ∧
    (mergeStep i0 acc p).1.type = acc.1.type ∧
    (mergeStep i0 acc p).1.return_type = acc.1.return_type ∧
    (mergeStep i0 acc p).1.filename = acc.1.filename := by
  cases hpd : p.2.docstring with
  | none => simp [mergeStep, hpd]
  | some d =>
    by_cases hd : d = []
    · simp [mergeStep, hpd, hd]
    · simp [mergeStep, hpd, hd]

theorem mergeStep_locations (i0 : Nat) (acc : CodeConstruct × Nat) (p : Nat × CodeConstruct) :
    (mergeStep i0 acc p).1.source_locations =
      acc.1.source_locations ++ [locOf p.2] := by
  cases hpd : p.2.docstring with
  | none => simp [mergeStep, locOf, hpd]
  | some d =>
    by_cases hd : d = []
    · simp [mergeStep, locOf, hpd, hd]
    · simp [mergeStep, locOf, hpd, hd]

theorem mergeStep_docs (i0 : Nat) (acc : CodeConstruct × Nat) (p : Nat × CodeConstruct) :
    (mergeStep i0 acc p).1.merged_docstrings =
      acc.1.merged_docstrings ++ nonEmptyDocs [p.2] := by
  cases hpd : p.2.docstring with
  | none => simp [mergeStep, nonEmptyDocs, hpd]
  | some d =>
    by_cases hd : d = []
    · simp [mergeStep, nonEmptyDocs, hpd, hd]
    · simp [mergeStep, nonEmptyDocs, hpd, hd]

theorem nonEmptyDocs_cons (c : CodeConstruct) (cs : List CodeConstruct) :
    nonEmptyDocs (c :: cs) = nonEmptyDocs [c] ++ nonEmptyDocs cs := by
  unfold nonEmptyDocs
  cases hd : c.docstring with
  | none => simp [List.filterMap_cons, hd]
  | some d =>
    by_cases h : d = []
    · simp [List.filterMap_cons, hd, h]
    · simp [List.filterMap_cons, hd, h]

theorem foldl_mergeStep_fields (i0 : Nat) :
    ∀ (l : List (Nat × CodeConstruct)) (acc : CodeConstruct × Nat),
      (l.foldl (mergeStep i0) acc).1.full_name = acc.1.full_name ∧
      (l.foldl (mergeStep i0) acc).1.parameters = acc.1.parameters ∧
      (l.foldl (mergeStep i0) acc).1.docstring = acc.1.docstring ∧
      (l.foldl (mergeStep i0) acc).1.is_merged = acc.1.is_merged ∧
      (l.foldl (mergeStep i0) acc).1.name = acc.1.name ∧
      (l.foldl (mergeStep i0) acc).1.type = acc.1.type ∧
      (l.foldl (mergeStep i0) acc).1.return_type = acc.1.return_type ∧
      (l.foldl (mergeStep i0) acc).1.filename = acc.1.filename := by
  intro l
  induction l with
  | nil => intro acc; exact ⟨rfl, rfl, rfl, rfl, rfl, rfl, rfl, rfl⟩
  | cons p rest ih =>
    intro acc
    simp only [List.foldl_cons]
    obtain ⟨h1, h2, h3, h4, h5, h6, h7, h8⟩ := ih (mergeStep i0 acc p)
    obtain ⟨g1, g2, g3, g4, g5, g6, g7, g8⟩ := mergeStep_fst_fields i0 acc p
    exact ⟨h1.trans g1, h2.trans g2, h3.trans g3, h4.trans g4,
           h5.trans g5, h6.trans g6, h7.trans g7, h8.trans g8⟩

theorem foldl_mergeStep_locations (i0 : Nat) :
    ∀ (l : List (Nat × CodeConstruct)) (acc : CodeConstruct × Nat),
      (l.foldl (mergeStep i0) acc).1.source_locations =
        acc.1.source_locations ++ l.map (fun p => locOf p.2) := by
  intro l
  induction l with
  | nil => intro acc; simp
  | cons p rest ih =>
    intro acc
    simp only [List.foldl_cons, List.map_cons]
    rw [ih (mergeStep i0 acc p), mergeStep_locations i0 acc p]
    simp

theorem foldl_mergeStep_docs (i0 : Nat) :
    ∀ (l : List (Nat × CodeConstruct)) (acc : CodeConstruct × Nat),
      (l.foldl (mergeStep i0) acc).1.merged_docstrings =
        acc.1.merged_docstrings ++ nonEmptyDocs (l.map Prod.snd) := by
  intro l
  induction l with
  | nil => intro acc; simp [nonEmptyDocs]
  | cons p rest ih =>
    intro acc
    simp only [List.foldl_cons, List.map_cons]
    rw [ih (mergeStep i0 acc p), mergeStep_docs i0 acc p,
        nonEmptyDocs_cons p.2 (rest.map Prod.snd)]
    simp

theorem mergeBucket_cons2 (k : Str) (i0 : Nat) (c0 : CodeConstruct)
    (p1 : Nat × CodeConstruct) (rest : List (Nat × CodeConstruct)) :
    mergeBucket (k, (i0, c0) :: p1 :: rest) =
      ((((i0, c0) :: p1 :: rest).foldl (mergeStep i0)
          ({ c0 with is_merged := true, source_locations := [], merged_docstrings := [] }, 0)).2,
       if (((i0, c0) :: p1 :: rest).foldl (mergeStep i0)
            ({ c0 with is_merged := true, source_locations := [], merged_docstrings := [] },
              0)).1.merged_docstrings = []
       then (((i0, c0) :: p1 :: rest).foldl (mergeStep i0)
              ({ c0 with is_merged := true, source_locations := [], merged_docstrings := [] },
                0)).1
       else { (((i0, c0) :: p1 :: rest).foldl (mergeStep i0)
                ({ c0 with is_merged := true, source_locations := [], merged_docstrings := [] },
                  0)).1 with
              docstring := some (joinSep (s "\n\n")
                ((((i0, c0) :: p1 :: rest).foldl (mergeStep i0)
                  ({ c0 with is_merged := true, source_locations := [], merged_docstrings := [] },
                    0)).1.merged_docstrings)) }) := rfl

theorem mergeBucket_single (k : Str) (i0 : Nat) (c0 : CodeConstruct) :
    mergeBucket (k, [(i0, c0)]) = (0, c0) := rfl

theorem mergeBucket_merged (k : Str) (i0 : Nat) (c0 : CodeConstruct)
    (p1 : Nat × CodeConstruct) (rest : List (Nat × CodeConstruct)) :
    (mergeBucket (k, (i0, c0) :: p1 :: rest)).2.is_merged = true ∧
    (mergeBucket (k, (i0, c0) :: p1 :: rest)).2.full_name = c0.full_name ∧
    (mergeBucket (k, (i0, c0) :: p1 :: rest)).2.name = c0.name ∧
    (mergeBucket (k, (i0, c0) :: p1 :: rest)).2.type = c0.type ∧
    (mergeBucket (k, (i0, c0) :: p1 :: rest)).2.parameters = c0.parameters ∧
    (mergeBucket (k, (i0, c0) :: p1 :: rest)).2.return_type = c0.return_type ∧
    (mergeBucket (k, (i0, c0) :: p1 :: rest)).2.source_locations =
      (((i0, c0) :: p1 :: rest).map Prod.snd).map locOf ∧
    (mergeBucket (k, (i0, c0) :: p1 :: rest)).2.merged_docstrings =
      nonEmptyDocs (((i0, c0) :: p1 :: rest).map Prod.snd) ∧
    (nonEmptyDocs (((i0, c0) :: p1 :: rest).map Prod.snd) = [] →
      (mergeBucket (k, (i0, c0) :: p1 :: rest)).2.docstring = c0.docstring) ∧
    (nonEmptyDocs (((i0, c0) :: p1 :: rest).map Prod.snd) ≠ [] →
      (mergeBucket (k, (i0, c0) :: p1 :: rest)).2.docstring =
        some (joinSep (s "\n\n") (nonEmptyDocs (((i0, c0) :: p1 :: rest).map Prod.snd)))) := by
  rw [mergeBucket_cons2]
  obtain ⟨f1, f2, f3, f4, f5, f6, f7, f8⟩ :=
    foldl_mergeStep_fields i0 ((i0, c0) :: p1 :: rest)
      ({ c0 with is_merged := true, source_locations := [], merged_docstrings := [] }, 0)
  have hlocs := foldl_mergeStep_locations i0 ((i0, c0) :: p1 :: rest)
      ({ c0 with is_merged := true, source_locations := [], merged_docstrings := [] }, 0)
  have hdocs := foldl_mergeStep_docs i0 ((i0, c0) :: p1 :: rest)
      ({ c0 with is_merged := true, source_locations := [], merged_docstrings := [] }, 0)
  have hlocs2 : (((i0, c0) :: p1 :: rest).foldl (mergeStep i0)
      ({ c0 with is_merged := true, source_locations := [], merged_docstrings := [] },
        0)).1.source_locations = (((i0, c0) :: p1 :: rest).map Prod.snd).map locOf := by
    rw [List.map_map]
    exact hlocs
  by_cases hmd : (((i0, c0) :: p1 :: rest).foldl (mergeStep i0)
      ({ c0 with is_merged := true, source_locations := [], merged_docstrings := [] },
        0)).1.merged_docstrings = []
  · rw [if_pos hmd]
    exact ⟨f4, f1, f5, f6, f2, f7, hlocs2, hdocs,
           fun _ => f3, fun hne => absurd (hdocs.symm.trans hmd) hne⟩
  · rw [if_neg hmd]
    refine ⟨f4, f1, f5, f6, f2, f7, hlocs2, hdocs,
           fun h => absurd (hdocs.trans h) hmd, fun _ => ?_⟩
    show some _ = _
    rw [hdocs]
    rfl

theorem mergeBucket_full_name {k : Str} {ps : List (Nat × CodeConstruct)}
    (hne : ps ≠ []) (hall : ∀ p ∈ ps, p.2.full_name = k) :
    (mergeBucket (k, ps)).2.full_name = k := by
  cases ps with
  | nil => exact absurd rfl hne
  | cons p0 tail =>
    obtain ⟨i0, c0⟩ := p0
    cases tail with
    | nil =>
      rw [mergeBucket_single]
      exact hall (i0, c0) (List.mem_cons_self _ _)
    | cons p1 rest =>
      rw [(mergeBucket_merged k i0 c0 p1 rest).2.1]
      exact hall (i0, c0) (List.mem_cons_self _ _)

theorem records_full_name (cs : List CodeConstruct) :
    ∀ e ∈ buildDups cs, (mergeBucket e).2.full_name = e.1 := by
  intro e he
  obtain ⟨k, ps⟩ := e
  rcases buildDups_entry cs he with ⟨hk, hps, hne⟩
  have hall : ∀ p ∈ ps, p.2.full_name = k := by
    intro p hp
    rw [hps] at hp
    exact occIdx_mem hp
  exact mergeBucket_full_name hne hall

theorem mergeDuplicateConstructs_structure (cs : List CodeConstruct) :
    (mergeDuplicateConstructs cs).2 =
      ((buildDups cs).map mergeBucket).map Prod.snd ++
        cs.filter (fun c => decide (c.full_name = [])) := by
  by_cases h : cs = []
  · subst h; simp [mergeDuplicateConstructs, buildDups]
  · simp [mergeDuplicateConstructs, h]

theorem mergeDuplicateConstructs_conflicts (cs : List CodeConstruct) :
    (mergeDuplicateConstructs cs).1 =
      (((buildDups cs).map mergeBucket).map Prod.fst).sum := by
  by_cases h : cs = []
  · subst h; simp [mergeDuplicateConstructs, buildDups]
  · simp [mergeDuplicateConstructs, h]

theorem filter_records {q : Str} :
    ∀ (m : List DupEntry),
      (∀ e ∈ m, (mergeBucket e).2.full_name = e.1) →
      (m.map Prod.fst).Nodup →
      ∀ ps, (q, ps) ∈ m →
        ((m.map mergeBucket).map Prod.snd).filter (fun c => decide (c.full_name = q)) =
          [(mergeBucket (q, ps)).2] := by
  intro m
  induction m with
  | nil => intro _ _ ps h; simp at h
  | cons e rest ih =>
    intro hnames hnd ps hmem
    obtain ⟨k2, ps2⟩ := e
    simp only [List.map_cons, List.nodup_cons] at hnd
    obtain ⟨hk2, hndrest⟩ := hnd
    have hname2 : (mergeBucket (k2, ps2)).2.full_name = k2 :=
      hnames _ (List.mem_cons_self _ _)
    simp only [List.map_cons, List.filter_cons]
    rcases List.mem_cons.mp hmem with h | h
    · injection h with h1 h2
      subst h1
      subst h2
      have hcond : decide ((mergeBucket (q, ps)).2.full_name = q) = true := by
        rw [hname2]; simp
      have hrest_nil : ((rest.map mergeBucket).map Prod.snd).filter
          (fun c => decide (c.full_name = q)) = [] := by
        rw [List.filter_eq_nil]
        intro c hc
        rcases List.mem_map.mp hc with ⟨pr, hpr, rfl⟩
        rcases List.mem_map.mp hpr with ⟨e2, he2, rfl⟩
        have hn := hnames e2 (List.mem_cons_of_mem _ he2)
        rw [hn]
        simp only [decide_eq_true_eq]
        intro hkq
        exact hk2 (hkq ▸ List.mem_map_of_mem _ he2)
      rw [if_pos hcond, hrest_nil]
    · have hqne : k2 ≠ q := by
        intro hkq
        subst hkq
        exact hk2 (List.mem_map_of_mem Prod.fst h)
      rw [hname2]
      rw [if_neg (by simp [hqne])]
      exact ih (fun e2 he2 => hnames e2 (List.mem_cons_of_mem _ he2)) hndrest ps h

theorem merge_filter_eq (cs : List CodeConstruct) (q : Str) (hq : q ≠ [])
    (hocc : occIdx cs q ≠ []) :
    ((mergeDuplicateConstructs cs).2).filter (fun c => decide (c.full_name = q)) =
      [(mergeBucket (q, occIdx cs q)).2] := by
  rw [mergeDuplicateConstructs_structure, List.filter_append]
  have h2 : (cs.filter (fun c => decide (c.full_name = []))).filter
      (fun c => decide (c.full_name = q)) = [] := by
    rw [List.filter_eq_nil]
    intro c hc
    have hmem := List.of_mem_filter hc
    simp only [decide_eq_true_eq] at hmem ⊢
    rw [hmem]
    exact fun h => hq h.symm
  rw [h2, List.append_nil]
  exact filter_records (buildDups cs) (records_full_name cs) (nodup_keys_buildDups cs)
    _ (buildDups_mem_of_occ cs q hq hocc)

theorem detect_param_mismatch_ge1 (c1 c2 : CodeConstruct)
    (h : c1.parameters.length ≠ c2.parameters.length) :
    1 ≤ (detectDocstringConflicts c1 c2).length := by
  unfold detectDocstringConflicts
  rw [if_pos h]
  rw [List.length_append, List.length_singleton]
  omega

theorem mergeStep_conf_self (i0 : Nat) (acc : CodeConstruct × Nat) (p : Nat × CodeConstruct)
    (h : p.1 = i0) : (mergeStep i0 acc p).2 = acc.2 := by
  cases hpd : p.2.docstring with
  | none => simp [mergeStep, hpd, h]
  | some d =>
    by_cases hd : d = []
    · simp [mergeStep, hpd, hd, h]
    · simp [mergeStep, hpd, hd, h]

theorem mergeStep_conf_ge (i0 : Nat) (acc : CodeConstruct × Nat) (p : Nat × CodeConstruct)
    (h : p.1 ≠ i0) (hpar : acc.1.parameters.length ≠ p.2.parameters.length) :
    1 ≤ (mergeStep i0 acc p).2 := by
  have hm : (mergeStep i0 acc p).1.parameters = acc.1.parameters :=
    (mergeStep_fst_fields i0 acc p).2.1
  have hd : 1 ≤ (detectDocstringConflicts (mergeStep i0 acc p).1 p.2).length :=
    detect_param_mismatch_ge1 _ _ (by rw [hm]; exact hpar)
  have hshape : (mergeStep i0 acc p).2 =
      if p.1 ≠ i0 then acc.2 + (detectDocstringConflicts (mergeStep i0 acc p).1 p.2).length
      else acc.2 := rfl
  rw [hshape, if_pos h]
  omega

theorem mergeBucket_two_conflict {k : Str} {i0 j : Nat} {a b : CodeConstruct}
    (hij : j ≠ i0) (hpar : a.parameters.length ≠ b.parameters.length) :
    1 ≤ (mergeBucket (k, [(i0, a), (j, b)])).1 := by
  rw [mergeBucket_cons2 k i0 a (j, b) []]
  show 1 ≤ (List.foldl (mergeStep i0) _ _).2
  rw [show ([(i0, a), (j, b)].foldl (mergeStep i0)
      ({ a with is_merged := true, source_locations := [], merged_docstrings := [] }, 0)) =
      mergeStep i0 (mergeStep i0
        ({ a with is_merged := true, source_locations := [], merged_docstrings := [] }, 0)
        (i0, a)) (j, b) from rfl]
  apply mergeStep_conf_ge i0 _ (j, b) hij
  rw [(mergeStep_fst_fields i0 _ (i0, a)).2.1]
  exact hpar

theorem conflict_sum_ge {cs : List CodeConstruct} {k : Str} {ps}
    (he : (k, ps) ∈ buildDups cs) :
    (mergeBucket (k, ps)).1 ≤ (mergeDuplicateConstructs cs).1 := by
  rw [mergeDuplicateConstructs_conflicts]
  exact List.single_le_sum (fun x _ => Nat.zero_le x) _
    (List.mem_map_of_mem _ (List.mem_map_of_mem _ he))

/-- Claim C1: for every input construct list, a non-empty qualified name that
occurs in at least two constructs yields exactly one output record with that
name, and that record is merged, carries one `"<filename>:<start_line>"`
location per occurrence in discovery order, and its documentation text (an
absent optional read as the empty string) is the non-empty docstrings of the
occurrences joined with a blank line in discovery order. -/
theorem c1_duplicate_merge (cs : List CodeConstruct) (q : Str) (hq : q ≠ [])
    (h2 : 2 ≤ (occurrences cs q).length) :
    ∃ r, ((mergeDuplicateConstructs cs).2).filter (fun c => decide (c.full_name = q)) = [r] ∧
      r.is_merged = true ∧
      r.source_locations = (occurrences cs q).map locOf ∧
      r.docstring.getD [] = joinSep (s "\n\n") (nonEmptyDocs (occurrences cs q)) := by
  have hlen : (occIdx cs q).length = (occurrences cs q).length := by
    rw [← occIdx_map_snd cs q, List.length_map]
  obtain ⟨p0, p1, rest, hx⟩ : ∃ p0 p1 rest, occIdx cs q = p0 :: p1 :: rest := by
    rcases h : occIdx cs q with _ | ⟨p0, _ | ⟨p1, rest⟩⟩
    · rw [h] at hlen; simp at hlen; omega
    · rw [h] at hlen; simp at hlen; omega
    · exact ⟨p0, p1, rest, rfl⟩
  obtain ⟨i0, c0⟩ := p0
  have hocc_ne : occIdx cs q ≠ [] := by rw [hx]; simp
  have hfilter := merge_filter_eq cs q hq hocc_ne
  rw [hx] at hfilter
  have hoccs : occurrences cs q = ((i0, c0) :: p1 :: rest).map Prod.snd := by
    rw [← occIdx_map_snd cs q, hx]
  obtain ⟨hm, _, _, _, _, _, hlocs, _, hnil_doc, hsome_doc⟩ :=
    mergeBucket_merged q i0 c0 p1 rest
  refine ⟨(mergeBucket (q, (i0, c0) :: p1 :: rest)).2, hfilter, hm, ?_, ?_⟩
  · rw [hoccs]; exact hlocs
  · rw [hoccs]
    by_cases hmd : nonEmptyDocs (((i0, c0) :: p1 :: rest).map Prod.snd) = []
    · rw [hmd, hnil_doc hmd]
      have hc0 : nonEmptyDocs [c0] = [] := by
        have := nonEmptyDocs_cons c0 ((p1 :: rest).map Prod.snd)
        rw [show ((i0, c0) :: p1 :: rest).map Prod.snd =
              c0 :: (p1 :: rest).map Prod.snd from rfl] at hmd
        rw [hmd] at this
        exact (List.append_eq_nil.mp this.symm).1
      cases hdoc : c0.docstring with
      | none => simp [joinSep]
      | some d =>
        unfold nonEmptyDocs at hc0
        simp only [List.filterMap, hdoc] at hc0
        by_cases hdn : d = []
        · subst hdn; simp [hdoc, joinSep]
        · simp [hdn] at hc0
    · rw [hsome_doc hmd]
      simp

/-- Witness for C1 at a concrete two-occurrence input with docstrings `A`
and `B`. -/
theorem c1_duplicate_merge_witness :
    (s "f" ≠ []) ∧ 2 ≤ (occurrences [w1a, w1b] (s "f")).length ∧
    (∃ r, ((mergeDuplicateConstructs [w1a, w1b]).2).filter
        (fun c => decide (c.full_name = s "f")) = [r] ∧
      r.is_merged = true ∧
      r.source_locations = (occurrences [w1a, w1b] (s "f")).map locOf ∧
      r.docstring.getD [] =
        joinSep (s "\n\n") (nonEmptyDocs (occurrences [w1a, w1b] (s "f")))) :=
  ⟨by decide, by decide, c1_duplicate_merge [w1a, w1b] (s "f") (by decide) (by decide)⟩

/-- Claim C2: an input whose occurrences of a non-empty qualified name are
exactly two constructs with differing parameter counts still produces exactly
one merged record for that name (never two, never zero), built on the
first-seen construct as structural basis, and the returned conflict count is
at least one. -/
theorem c2_conflict_nonblocking (cs : List CodeConstruct) (q : Str)
    (a b : CodeConstruct) (hq : q ≠ []) (hocc : occurrences cs q = [a, b])
    (hpar : a.parameters.length ≠ b.parameters.length) :
    (∃ r, ((mergeDuplicateConstructs cs).2).filter (fun c => decide (c.full_name = q)) = [r] ∧
      r.is_merged = true ∧ r.type = a.type ∧ r.name = a.name ∧
      r.parameters = a.parameters ∧ r.return_type = a.return_type) ∧
    1 ≤ (mergeDuplicateConstructs cs).1 := by
  have hmap : (occIdx cs q).map Prod.snd = [a, b] := by
    rw [occIdx_map_snd cs q, hocc]
  obtain ⟨pa, pb, hx⟩ : ∃ pa pb, occIdx cs q = [pa, pb] := by
    rcases h : occIdx cs q with _ | ⟨pa, _ | ⟨pb, _ | ⟨pc, r3⟩⟩⟩
    · rw [h] at hmap; simp at hmap
    · rw [h] at hmap; simp at hmap
    · exact ⟨pa, pb, rfl⟩
    · rw [h] at hmap; simp at hmap
  rw [hx] at hmap
  simp only [List.map_cons, List.map_nil, List.cons.injEq, and_true] at hmap
  obtain ⟨ha, hb⟩ := hmap
  obtain ⟨i0, c0⟩ := pa
  obtain ⟨j, c1⟩ := pb
  simp only at ha hb
  rw [ha, hb] at hx
  have hij : j ≠ i0 := by
    have hpw := occIdx_pairwise_fst cs q
    rw [hx] at hpw
    have := (List.pairwise_cons.mp hpw).1 (j, b) (List.mem_cons_self _ _)
    omega
  have hocc_ne : occIdx cs q ≠ [] := by rw [hx]; simp
  have hfilter := merge_filter_eq cs q hq hocc_ne
  rw [hx] at hfilter
  obtain ⟨hm, _, hname, htype, hparam, hret, _, _, _, _⟩ :=
    mergeBucket_merged q i0 a (j, b) []
  refine ⟨⟨(mergeBucket (q, [(i0, a), (j, b)])).2, hfilter, hm, htype, hname, hparam, hret⟩, ?_⟩
  have hge := mergeBucket_two_conflict (k := q) hij hpar
  have hmem : (q, [(i0, a), (j, b)]) ∈ buildDups cs := by
    have := buildDups_mem_of_occ cs q hq hocc_ne
    rw [hx] at this
    exact this
  exact le_trans hge (conflict_sum_ge hmem)

/-- Witness for C2 at a concrete input with parameter counts one and zero. -/
theorem c2_conflict_nonblocking_witness :
    (s "g" ≠ []) ∧ occurrences [w2a, w2b] (s "g") = [w2a, w2b] ∧
    w2a.parameters.length ≠ w2b.parameters.length ∧
    ((∃ r, ((mergeDuplicateConstructs [w2a, w2b]).2).filter
        (fun c => decide (c.full_name = s "g")) = [r] ∧
      r.is_merged = true ∧ r.type = w2a.type ∧ r.name = w2a.name ∧
      r.parameters = w2a.parameters ∧ r.return_type = w2a.return_type) ∧
    1 ≤ (mergeDuplicateConstructs [w2a, w2b]).1) :=
  ⟨by decide, by decide, by decide,
   c2_conflict_nonblocking [w2a, w2b] (s "g") w2a w2b (by decide) (by decide) (by decide)⟩

/-- Claim C3: constructs whose qualified name is empty are never merged with
each other; the output contains exactly the empty-named input constructs,
unmodified and in their original relative order. -/
theorem c3_empty_names_standalone (cs : List CodeConstruct) :
    ((mergeDuplicateConstructs cs).2).filter (fun c => decide (c.full_name = [])) =
      cs.filter (fun c => decide (c.full_name = [])) := by
  rw [mergeDuplicateConstructs_structure, List.filter_append]
  have h1 : (((buildDups cs).map mergeBucket).map Prod.snd).filter
      (fun c => decide (c.full_name = [])) = [] := by
    rw [List.filter_eq_nil]
    intro c hc
    rcases List.mem_map.mp hc with ⟨pr, hpr, rfl⟩
    rcases List.mem_map.mp hpr with ⟨e, he, rfl⟩
    have hname := records_full_name cs e he
    obtain ⟨k, ps⟩ := e
    have hkey := (buildDups_entry cs he).1
    rw [hname]
    simpa using hkey
  rw [h1, List.nil_append]
  rw [List.filter_eq_self.mpr]
  intro c hc
  exact (List.mem_filter.mp hc).2

/-- Counterexample to claim C7 as stated: for input `[b-construct,
a-construct]` the merger returns the records in ascending name order
`[a, b]`, not in first-encountered order `[b, a]` (the grouping map iterates
its keys lexicographically). -/
theorem c7_first_seen_order_counterexample :
    (mergeDuplicateConstructs [cNameB, cNameA]).2 = [cNameA, cNameB] ∧
    (mergeDuplicateConstructs [cNameB, cNameA]).2 ≠ [cNameB, cNameA] := by
  constructor
  · decide
  · decide

/-- Claim C7 as amended: the output is one merged-or-passthrough record per
unique non-empty qualified name, in ascending lexicographic order of those
names (the iteration order of the `std::map` used for grouping), followed by
all constructs with empty qualified name in their original relative order. -/
theorem c7_output_order (cs : List CodeConstruct) :
    ∃ recs, (mergeDuplicateConstructs cs).2 =
        recs ++ cs.filter (fun c => decide (c.full_name = [])) ∧
      (recs.map (fun r => r.full_name)).Pairwise keyLt ∧
      (∀ q, q ≠ [] → ((q ∈ recs.map (fun r => r.full_name)) ↔ occurrences cs q ≠ [])) := by
  refine ⟨((buildDups cs).map mergeBucket).map Prod.snd,
    mergeDuplicateConstructs_structure cs, ?_, ?_⟩
  · have hkeys : (((buildDups cs).map mergeBucket).map Prod.snd).map
        (fun r => r.full_name) = (buildDups cs).map Prod.fst := by
      rw [List.map_map, List.map_map]
      exact List.map_congr_left (fun e he => records_full_name cs e he)
    rw [hkeys]
    exact pairwise_keys_buildDups cs
  · intro q hqne
    have hkeys : (((buildDups cs).map mergeBucket).map Prod.snd).map
        (fun r => r.full_name) = (buildDups cs).map Prod.fst := by
      rw [List.map_map, List.map_map]
      exact List.map_congr_left (fun e he => records_full_name cs e he)
    rw [hkeys]
    constructor
    · intro hmem
      rcases List.mem_map.mp hmem with ⟨e, he, rfl⟩
      obtain ⟨k, ps⟩ := e
      rcases buildDups_entry cs he with ⟨_, hps, hne⟩
      intro hnil
      apply hne
      rw [hps]
      have : (occIdx cs k).map Prod.snd = [] := by
        rw [occIdx_map_snd]
        exact hnil
      exact List.map_eq_nil.mp this
    · intro hocc
      have hidx : occIdx cs q ≠ [] := by
        intro h
        apply hocc
        rw [← occIdx_map_snd, h]
        rfl
      exact List.mem_map_of_mem Prod.fst (buildDups_mem_of_occ cs q hqne hidx)

/-- Claim C5: the text-based name extractor recovers qualified and
unqualified operator names and destructor names exactly. -/
theorem c5_operator_name_recovery :
    extractFunctionNameFromText (s "JsonDoc::operator=(JsonDoc&& other) noexcept") =
      s "JsonDoc::operator=" ∧
    extractFunctionNameFromText (s "operator=(JsonDoc&& other) noexcept") =
      s "operator=" ∧
    extractFunctionNameFromText (s "JsonDoc::operator[](std::size_t index) noexcept") =
      s "JsonDoc::operator[]" ∧
    extractFunctionNameFromText (s "operator[](std::size_t index) noexcept") =
      s "operator[]" ∧
    extractFunctionNameFromText (s "~JsonDoc()") = s "~JsonDoc" := by
  refine ⟨?_, ?_, ?_, ?_, ?_⟩ <;> decide

/-- Claim C4, evaluated at the failing input: for the end-to-end scenario file
the extractor yields exactly one construct with the claimed kind, names,
return type and parameters, but its `doc_comment` is absent: the
nearby-docstring heuristic looks back only when more than 100 bytes precede
the construct (`node_start > 100`), and this construct starts at byte 23, so
the comment `Add two numbers` is never attached. -/
theorem c4_nearby_docstring_missed :
    extractConstructs addTree addContent (s "test.cpp") = some [addConstruct] ∧
    addConstruct.type = ConstructType.Function ∧
    addConstruct.name = s "add" ∧
    addConstruct.full_name = s "add" ∧
    addConstruct.return_type = some (s "int") ∧
    addConstruct.parameters = [{ type := s "int", name := s "a" },
                               { type := s "int", name := s "b" }] ∧
    addConstruct.docstring = none ∧
    findNearbyDocstring (TSNode.mk (s "function_definition") 23 62 1 1 []) addContent =
      some none := by
  refine ⟨?_, ?_, ?_, ?_, ?_, ?_, ?_, ?_⟩ <;> decide

/-- Claim C6: a `function_definition` node whose full node text contains the
substring `= delete` contributes no construct and its children are not
visited, so such a function never appears in the output construct list. -/
theorem c6_deleted_function_skipped (parentNode : Option TSNode) (node : TSNode)
    (content filename namespace_path : Str) (t : Str)
    (hty : node.type = s "function_definition")
    (htext : getNodeText node content = some t)
    (hdel : (strFind t (s "= delete")).isSome = true) :
    extractFromNode parentNode node content filename namespace_path = some [] := by
  obtain ⟨ty, sb, eb, sr, er, cs⟩ := node
  simp only [TSNode.type] at hty
  subst hty
  rw [extractFromNode]
  rw [if_pos rfl]
  rw [htext]
  show (Option.bind _ _) = _
  simp only [Option.bind]
  rw [if_pos hdel]

/-- Witness for C6 at a concrete deleted assignment operator. -/
theorem c6_deleted_function_skipped_witness :
    delNode.type = s "function_definition" ∧
    getNodeText delNode delContent = some delContent ∧
    (strFind delContent (s "= delete")).isSome = true ∧
    extractFromNode none delNode delContent (s "f.h") [] = some [] :=
  ⟨by decide, by decide, by decide,
   c6_deleted_function_skipped none delNode delContent (s "f.h") [] delContent
     (by decide) (by decide) (by decide)⟩

/-- Claim C10: a node handed to `extractMethodDeclaration` that has no
`function_declarator` child (the bare-declarator case) always yields an empty
parameter list, even when the node itself carries a `parameter_list` child,
because `extractParameters` searches for a declarator child of the node it is
given instead of treating the node itself as the declarator. -/
theorem c10_method_declaration_no_params (node : TSNode) (parentNode : Option TSNode)
    (content filename namespace_path : Str) (c : CodeConstruct)
    (hnochild : ∀ ch ∈ node.children, ch.type ≠ s "function_declarator")
    (hres : extractMethodDeclaration node parentNode content filename namespace_path = some c) :
    c.parameters = [] := by
  have hfind : findChildByType node (s "function_declarator") = none := by
    unfold findChildByType
    rw [List.find?_eq_none]
    intro x hx
    simpa using hnochild x hx
  have hparams : extractParameters node content = some [] := by
    unfold extractParameters
    rw [hfind]
  unfold extractMethodDeclaration at hres
  rw [hparams] at hres
  repeat' first
    | (injection hres with hres; subst hres; simp_all)
    | split at hres
    | obtain ⟨_, _, hres⟩ := Option.bind_eq_some.mp hres

/-- Witness for C10 at a concrete bare declarator with a parameter list. -/
theorem c10_method_declaration_no_params_witness :
    (∀ ch ∈ mdNode.children, ch.type ≠ s "function_declarator") ∧
    extractMethodDeclaration mdNode none mdContent (s "iface.h") [] = some mdConstruct ∧
    mdConstruct.parameters = [] :=
  ⟨by decide, by decide,
   c10_method_declaration_no_params mdNode none mdContent (s "iface.h") [] mdConstruct
     (by decide) (by decide)⟩

theorem mem_of_head_opt {α : Type} {l : List α} {a : α} (h : l.head? = some a) :
    a ∈ l := by
  cases l with
  | nil => simp at h
  | cons x xs =>
    simp only [List.head?_cons, Option.some.injEq] at h
    subst h
    exact List.mem_cons_self _ _

theorem nodesWFb_mem {len : Nat} {cs : List TSNode} (h : nodesWFb len cs = true)
    {c : TSNode} (hc : c ∈ cs) : nodeWFb len c = true := by
  induction cs with
  | nil => simp at hc
  | cons x xs ih =>
    simp only [nodesWFb, Bool.and_eq_true] at h
    rcases List.mem_cons.mp hc with rfl | hc2
    · exact h.1
    · exact ih h.2 hc2

theorem nodeWFb_start_le {len : Nat} {n : TSNode} (h : nodeWFb len n = true) :
    n.startByte ≤ len := by
  obtain ⟨ty, sb, eb, sr, er, cs⟩ := n
  simp only [nodeWFb, Bool.and_eq_true, decide_eq_true_eq] at h
  simp only [TSNode.startByte]
  omega

theorem nodeWFb_children {len : Nat} {n : TSNode} (h : nodeWFb len n = true) :
    nodesWFb len n.children = true := by
  obtain ⟨ty, sb, eb, sr, er, cs⟩ := n
  simp only [nodeWFb, Bool.and_eq_true] at h
  exact h.2

theorem nodeWFb_child {len : Nat} {n c : TSNode} (h : nodeWFb len n = true)
    (hc : c ∈ n.children) : nodeWFb len c = true :=
  nodesWFb_mem (nodeWFb_children h) hc

theorem findChildByType_mem {n : TSNode} {t : Str} {c : TSNode}
    (h : findChildByType n t = some c) : c ∈ n.children :=
  List.mem_of_find?_eq_some h

theorem getNodeText_total {n : TSNode} {content : Str}
    (h : n.startByte ≤ content.length) :
    ∃ t, getNodeText n content = some t := by
  simp only [getNodeText]
  rw [if_pos h]
  exact ⟨_, rfl⟩

theorem findNearbyDocstring_total {n : TSNode} {content : Str}
    (h : n.startByte ≤ content.length) :
    ∃ d, findNearbyDocstring n content = some d := by
  rw [← Option.isSome_iff_exists]
  simp only [findNearbyDocstring]
  by_cases h100 : 100 < n.startByte
  · rw [if_pos h100, if_pos (by omega)]
    repeat' first
      | rfl
      | (simp only [Option.some_bind'])
      | split
  · rw [if_neg h100]; rfl

theorem extractReturnTypeGo_total {content : Str} :
    ∀ {cs : List TSNode}, nodesWFb content.length cs = true →
      ∃ t, extractReturnTypeGo content cs = some t := by
  intro cs
  induction cs with
  | nil => intro _; exact ⟨_, rfl⟩
  | cons c rest ih =>
    intro h
    simp only [nodesWFb, Bool.and_eq_true] at h
    simp only [extractReturnTypeGo]
    split
    · exact getNodeText_total (nodeWFb_start_le h.1)
    · split
      · exact ⟨_, rfl⟩
      · exact ih h.2

theorem extractReturnType_total {n : TSNode} {content : Str}
    (h : nodeWFb content.length n = true) :
    ∃ t, extractReturnType n content = some t :=
  extractReturnTypeGo_total (nodeWFb_children h)

theorem extractTypeName_total :
    ∀ (n : TSNode) (content : Str), nodeWFb content.length n = true →
      ∃ t, extractTypeName n content = some t
  | .mk ty sb eb sr er cs, content, h => by
    cases cs with
    | nil =>
      have hsb : (TSNode.mk ty sb eb sr er []).startByte ≤ content.length :=
        nodeWFb_start_le h
      obtain ⟨t, ht⟩ := getNodeText_total hsb
      refine ⟨t, ?_⟩
      show (if ty = s "primitive_type" ∨ ty = s "type_identifier" then
              getNodeText (TSNode.mk ty sb eb sr er []) content
            else if ty = s "pointer_declarator" then
              getNodeText (TSNode.mk ty sb eb sr er []) content
            else if ty = s "reference_declarator" then
              getNodeText (TSNode.mk ty sb eb sr er []) content
            else getNodeText (TSNode.mk ty sb eb sr er []) content) = some t
      repeat' first
        | exact ht
        | split
    | cons base rest =>
      have hsb : (TSNode.mk ty sb eb sr er (base :: rest)).startByte ≤ content.length :=
        nodeWFb_start_le h
      have hbase : nodeWFb content.length base = true :=
        nodeWFb_child h (List.mem_cons_self _ _)
      obtain ⟨t, ht⟩ := getNodeText_total hsb
      obtain ⟨u, hu⟩ := extractTypeName_total base content hbase
      rw [← Option.isSome_iff_exists]
      show (if ty = s "primitive_type" ∨ ty = s "type_identifier" then
              getNodeText (TSNode.mk ty sb eb sr er (base :: rest)) content
            else if ty = s "pointer_declarator" then
              (extractTypeName base content).map (fun r => r ++ s "*")
            else if ty = s "reference_declarator" then
              (extractTypeName base content).map (fun r => r ++ s "&")
            else getNodeText (TSNode.mk ty sb eb sr er (base :: rest)) content).isSome = true
      simp only [ht, hu]
      repeat' first
        | rfl
        | split

theorem extractParamDecl_total {child : TSNode} {content : Str}
    (h : nodeWFb content.length child = true) :
    ∃ p, extractParamDecl child content = some p := by
  rw [← Option.isSome_iff_exists]
  simp only [extractParamDecl]
  cases hh : child.children.head? with
  | none =>
    cases hfn : findChildByType child (s "identifier") with
    | none =>
      repeat' first
        | rfl
        | (simp only [Option.some_bind'])
        | split
    | some nn =>
      obtain ⟨t2, ht2⟩ := getNodeText_total
        (nodeWFb_start_le (nodeWFb_child h (findChildByType_mem hfn)))
      simp only [hfn, ht2]
      repeat' first
        | rfl
        | (simp only [Option.some_bind'])
        | split
  | some tn =>
    have htn : nodeWFb content.length tn = true := nodeWFb_child h (mem_of_head_opt hh)
    obtain ⟨ty0, hty0⟩ := extractTypeName_total tn content htn
    cases hfn : findChildByType child (s "identifier") with
    | none =>
      simp only [hh, hty0, hfn]
      repeat' first
        | rfl
        | (simp only [Option.some_bind'])
        | split
    | some nn =>
      obtain ⟨t2, ht2⟩ := getNodeText_total
        (nodeWFb_start_le (nodeWFb_child h (findChildByType_mem hfn)))
      simp only [hh, hty0, hfn, ht2]
      repeat' first
        | rfl
        | (simp only [Option.some_bind'])
        | split

theorem extractParameters_fold_total {content : Str} :
    ∀ (l : List TSNode) (acc : List Parameter), nodesWFb content.length l = true →
      ∃ r, (List.foldlM (fun acc child =>
          if child.type = s "parameter_declaration" then
            (extractParamDecl child content).map (fun p => acc ++ [p])
          else some acc) acc l) = some r := by
  intro l
  induction l with
  | nil => intro acc _; exact ⟨acc, rfl⟩
  | cons c rest ih =>
    intro acc h
    simp only [nodesWFb, Bool.and_eq_true] at h
    simp only [List.foldlM_cons]
    by_cases hc : c.type = s "parameter_declaration"
    · rw [if_pos hc]
      obtain ⟨p, hp⟩ := extractParamDecl_total h.1
      rw [hp]
      simp only [Option.map_some', Option.bind_eq_bind', Option.some_bind']
      exact ih (acc ++ [p]) h.2
    · rw [if_neg hc]
      simp only [Option.bind_eq_bind', Option.some_bind']
      exact ih acc h.2

theorem extractParameters_total {n : TSNode} {content : Str}
    (h : nodeWFb content.length n = true) :
    ∃ ps, extractParameters n content = some ps := by
  cases hd : findChildByType n (s "function_declarator") with
  | none => exact ⟨[], by simp [extractParameters, hd]⟩
  | some decl =>
    cases hpl : findChildByType decl (s "parameter_list") with
    | none => exact ⟨[], by simp [extractParameters, hd, hpl]⟩
    | some pl =>
      have hpl_wf : nodeWFb content.length pl = true :=
        nodeWFb_child (nodeWFb_child h (findChildByType_mem hd)) (findChildByType_mem hpl)
      obtain ⟨r, hr⟩ := extractParameters_fold_total pl.children [] (nodeWFb_children hpl_wf)
      refine ⟨r, ?_⟩
      simp only [extractParameters, hd, hpl]
      exact hr

theorem findMethodName_total {n : TSNode} {content : Str}
    (h : n.startByte ≤ content.length) :
    ∃ r, findMethodName n content = some r := by
  obtain ⟨t, ht⟩ := getNodeText_total h
  rw [← Option.isSome_iff_exists]
  simp only [findMethodName, ht]
  repeat' first
    | (simp only [Option.bind_eq_bind', Option.some_bind'])
    | split
    | rfl

theorem extractFunctionNameWithDeclarator_total {node declarator : TSNode}
    {content namespace_path : Str} {c : CodeConstruct}
    (hn : node.startByte ≤ content.length)
    (hd : nodeWFb content.length declarator = true) :
    ∃ r, extractFunctionNameWithDeclarator node declarator content namespace_path c = some r := by
  rw [← Option.isSome_iff_exists]
  cases hq : findChildByType declarator (s "qualified_identifier") with
  | some name_node =>
    obtain ⟨t, ht⟩ := getNodeText_total
      (nodeWFb_start_le (nodeWFb_child hd (findChildByType_mem hq)))
    simp only [extractFunctionNameWithDeclarator, hq, ht]
    repeat' first
      | (simp only [Option.bind_eq_bind', Option.some_bind'])
      | split
      | rfl
  | none =>
    obtain ⟨dt, hdt⟩ := getNodeText_total (nodeWFb_start_le hd)
    obtain ⟨ft, hft⟩ := getNodeText_total hn
    cases hid : findChildByType declarator (s "identifier") with
    | none =>
      simp only [extractFunctionNameWithDeclarator, hq, hdt, hft, hid]
      repeat' first
        | (simp only [Option.bind_eq_bind', Option.some_bind'])
        | split
        | rfl
    | some simple_name_node =>
      obtain ⟨st, hst⟩ := getNodeText_total
        (nodeWFb_start_le (nodeWFb_child hd (findChildByType_mem hid)))
      simp only [extractFunctionNameWithDeclarator, hq, hdt, hft, hid, hst]
      repeat' first
        | (simp only [Option.bind_eq_bind', Option.some_bind'])
        | split
        | rfl

theorem extractFunctionNameNoDeclarator_total {node : TSNode}
    {content namespace_path : Str} {c : CodeConstruct}
    (hn : node.startByte ≤ content.length) :
    ∃ r, extractFunctionNameNoDeclarator node content namespace_path c = some r := by
  obtain ⟨ft, hft⟩ := getNodeText_total hn
  rw [← Option.isSome_iff_exists]
  simp only [extractFunctionNameNoDeclarator, hft]
  repeat' first
    | (simp only [Option.bind_eq_bind', Option.some_bind'])
    | split
    | rfl

theorem extractFunction_total {node : TSNode} {content filename namespace_path : Str}
    (h : nodeWFb content.length node = true) :
    ∃ r, extractFunction node content filename namespace_path = some r := by
  have hn : node.startByte ≤ content.length := nodeWFb_start_le h
  obtain ⟨rt, hrt⟩ := extractReturnType_total h
  obtain ⟨ps, hps⟩ := extractParameters_total h
  obtain ⟨doc, hdoc⟩ := findNearbyDocstring_total hn
  rw [← Option.isSome_iff_exists]
  cases hfd : findChildByType node (s "function_declarator") with
  | some declarator =>
    have hdwf : nodeWFb content.length declarator = true :=
      nodeWFb_child h (findChildByType_mem hfd)
    obtain ⟨c1, hc1⟩ := @extractFunctionNameWithDeclarator_total node declarator
      content namespace_path
      { type := ConstructType.Function, filename := filename,
        namespace_path := namespace_path } hn hdwf
    simp only [extractFunction, hfd, hc1, hrt, hps, hdoc]
    repeat' first
      | (simp only [Option.bind_eq_bind', Option.some_bind'])
      | split
      | rfl
  | none =>
    obtain ⟨c1, hc1⟩ := @extractFunctionNameNoDeclarator_total node content namespace_path
      { type := ConstructType.Function, filename := filename,
        namespace_path := namespace_path } hn
    simp only [extractFunction, hfd, hc1, hrt, hps, hdoc]
    repeat' first
      | (simp only [Option.bind_eq_bind', Option.some_bind'])
      | split
      | rfl

theorem extractMethodDeclaration_total {node : TSNode} {parentNode : Option TSNode}
    {content filename namespace_path : Str}
    (h : nodeWFb content.length node = true)
    (hp : ∀ q, parentNode = some q → nodeWFb content.length q = true) :
    ∃ r, extractMethodDeclaration node parentNode content filename namespace_path = some r := by
  have hn : node.startByte ≤ content.length := nodeWFb_start_le h
  obtain ⟨ps, hps⟩ := extractParameters_total h
  obtain ⟨doc, hdoc⟩ := findNearbyDocstring_total hn
  rw [← Option.isSome_iff_exists]
  cases parentNode with
  | some parent =>
    obtain ⟨rt0, hrt0⟩ := extractReturnType_total (hp parent rfl)
    cases hid : findChildByType node (s "identifier") with
    | some name_node =>
      obtain ⟨nm, hnm⟩ := getNodeText_total
        (nodeWFb_start_le (nodeWFb_child h (findChildByType_mem hid)))
      simp only [extractMethodDeclaration, hid, hnm, hrt0, Option.map_some', hps, hdoc]
      repeat' first
        | (simp only [Option.bind_eq_bind', Option.some_bind'])
        | split
        | rfl
    | none =>
      cases hdn : findChildByType node (s "destructor_name") with
      | some destructor_node =>
        obtain ⟨nm, hnm⟩ := getNodeText_total
          (nodeWFb_start_le (nodeWFb_child h (findChildByType_mem hdn)))
        simp only [extractMethodDeclaration, hid, hdn, hnm, hrt0, Option.map_some',
                   hps, hdoc]
        repeat' first
          | (simp only [Option.bind_eq_bind', Option.some_bind'])
          | split
          | rfl
      | none =>
        obtain ⟨nm, hnm⟩ := findMethodName_total hn
        simp only [extractMethodDeclaration, hid, hdn, hnm, hrt0, Option.map_some',
                   hps, hdoc]
        repeat' first
          | (simp only [Option.bind_eq_bind', Option.some_bind'])
          | split
          | rfl
  | none =>
    cases hid : findChildByType node (s "identifier") with
    | some name_node =>
      obtain ⟨nm, hnm⟩ := getNodeText_total
        (nodeWFb_start_le (nodeWFb_child h (findChildByType_mem hid)))
      simp only [extractMethodDeclaration, hid, hnm, hps, hdoc]
      repeat' first
        | (simp only [Option.bind_eq_bind', Option.some_bind'])
        | split
        | rfl
    | none =>
      cases hdn : findChildByType node (s "destructor_name") with
      | some destructor_node =>
        obtain ⟨nm, hnm⟩ := getNodeText_total
          (nodeWFb_start_le (nodeWFb_child h (findChildByType_mem hdn)))
        simp only [extractMethodDeclaration, hid, hdn, hnm, hps, hdoc]
        repeat' first
          | (simp only [Option.bind_eq_bind', Option.some_bind'])
          | split
          | rfl
      | none =>
        obtain ⟨nm, hnm⟩ := findMethodName_total hn
        simp only [extractMethodDeclaration, hid, hdn, hnm, hps, hdoc]
        repeat' first
          | (simp only [Option.bind_eq_bind', Option.some_bind'])
          | split
          | rfl

theorem extractClass_total {node : TSNode} {content filename namespace_path : Str}
    (h : nodeWFb content.length node = true) :
    ∃ r, extractClass node content filename namespace_path = some r := by
  obtain ⟨doc, hdoc⟩ := findNearbyDocstring_total (nodeWFb_start_le h)
  rw [← Option.isSome_iff_exists]
  cases hid : findChildByType node (s "type_identifier") with
  | none =>
    simp only [extractClass, hid, hdoc]
    repeat' first
      | (simp only [Option.bind_eq_bind', Option.some_bind'])
      | split
      | rfl
  | some name_node =>
    obtain ⟨t, ht⟩ := getNodeText_total
      (nodeWFb_start_le (nodeWFb_child h (findChildByType_mem hid)))
    simp only [extractClass, hid, ht, hdoc]
    repeat' first
      | (simp only [Option.bind_eq_bind', Option.some_bind'])
      | split
      | rfl

theorem extractStruct_total {node : TSNode} {content filename namespace_path : Str}
    (h : nodeWFb content.length node = true) :
    ∃ r, extractStruct node content filename namespace_path = some r := by
  obtain ⟨doc, hdoc⟩ := findNearbyDocstring_total (nodeWFb_start_le h)
  rw [← Option.isSome_iff_exists]
  cases hid : findChildByType node (s "type_identifier") with
  | none =>
    simp only [extractStruct, hid, hdoc]
    repeat' first
      | (simp only [Option.bind_eq_bind', Option.some_bind'])
      | split
      | rfl
  | some name_node =>
    obtain ⟨t, ht⟩ := getNodeText_total
      (nodeWFb_start_le (nodeWFb_child h (findChildByType_mem hid)))
    simp only [extractStruct, hid, ht, hdoc]
    repeat' first
      | (simp only [Option.bind_eq_bind', Option.some_bind'])
      | split
      | rfl

theorem extractEnum_total {node : TSNode} {content filename namespace_path : Str}
    (h : nodeWFb content.length node = true) :
    ∃ r, extractEnum node content filename namespace_path = some r := by
  obtain ⟨doc, hdoc⟩ := findNearbyDocstring_total (nodeWFb_start_le h)
  rw [← Option.isSome_iff_exists]
  cases hid : findChildByType node (s "type_identifier") with
  | none =>
    simp only [extractEnum, hid, hdoc]
    repeat' first
      | (simp only [Option.bind_eq_bind', Option.some_bind'])
      | split
      | rfl
  | some name_node =>
    obtain ⟨t, ht⟩ := getNodeText_total
      (nodeWFb_start_le (nodeWFb_child h (findChildByType_mem hid)))
    simp only [extractEnum, hid, ht, hdoc]
    repeat' first
      | (simp only [Option.bind_eq_bind', Option.some_bind'])
      | split
      | rfl

theorem extractNamespace_total {node : TSNode} {content filename namespace_path : Str}
    (h : nodeWFb content.length node = true) :
    ∃ r, extractNamespace node content filename namespace_path = some r := by
  obtain ⟨doc, hdoc⟩ := findNearbyDocstring_total (nodeWFb_start_le h)
  rw [← Option.isSome_iff_exists]
  cases hid : findChildByType node (s "identifier") with
  | none =>
    simp only [extractNamespace, hid, hdoc]
    repeat' first
      | (simp only [Option.bind_eq_bind', Option.some_bind'])
      | split
      | rfl
  | some name_node =>
    obtain ⟨t, ht⟩ := getNodeText_total
      (nodeWFb_start_le (nodeWFb_child h (findChildByType_mem hid)))
    simp only [extractNamespace, hid, ht, hdoc]
    repeat' first
      | (simp only [Option.bind_eq_bind', Option.some_bind'])
      | split
      | rfl

theorem childScope_total {node : TSNode} {content namespace_path : Str}
    (h : nodeWFb content.length node = true) :
    ∃ r, childScope node content namespace_path = some r := by
  rw [← Option.isSome_iff_exists]
  unfold childScope
  by_cases h1 : node.type = s "namespace_definition"
  · rw [if_pos h1]
    cases hid : findChildByType node (s "identifier") with
    | none => rfl
    | some name_node =>
      obtain ⟨t, ht⟩ := getNodeText_total
        (nodeWFb_start_le (nodeWFb_child h (findChildByType_mem hid)))
      simp only [ht]
      rfl
  · rw [if_neg h1]
    by_cases h2 : node.type = s "class_specifier" ∨ node.type = s "struct_specifier"
    · rw [if_pos h2]
      cases hid : findChildByType node (s "type_identifier") with
      | none => rfl
      | some name_node =>
        obtain ⟨t, ht⟩ := getNodeText_total
          (nodeWFb_start_le (nodeWFb_child h (findChildByType_mem hid)))
        simp only [ht]
        rfl
    · rw [if_neg h2]
      rfl

mutual

theorem extractFromNode_total :
    ∀ (parentNode : Option TSNode) (node : TSNode) (content filename namespace_path : Str),
      (∀ q, parentNode = some q → nodeWFb content.length q = true) →
      nodeWFb content.length node = true →
      ∃ r, extractFromNode parentNode node content filename namespace_path = some r
  | parentNode, .mk ty sb eb sr er cs, content, filename, namespace_path, hp, h => by
    rw [← Option.isSome_iff_exists]
    rw [extractFromNode]
    by_cases h1 : ty = s "function_definition"
    · rw [if_pos h1]
      obtain ⟨t, ht⟩ := getNodeText_total (nodeWFb_start_le h)
      obtain ⟨fc, hfc⟩ := @extractFunction_total (TSNode.mk ty sb eb sr er cs)
        content filename namespace_path h
      simp only [ht, hfc]
      repeat' first
        | (simp only [Option.bind_eq_bind', Option.some_bind'])
        | split
        | rfl
    · rw [if_neg h1]
      by_cases h2 : ty = s "function_declarator"
      · rw [if_pos h2]
        obtain ⟨mc, hmc⟩ := @extractMethodDeclaration_total (TSNode.mk ty sb eb sr er cs)
          parentNode content filename namespace_path h hp
        simp only [hmc]
        repeat' first
          | (simp only [Option.bind_eq_bind', Option.some_bind'])
          | split
          | rfl
      · rw [if_neg h2]
        by_cases h3 : ty = s "declaration"
        · rw [if_pos h3]
          cases hfd : findChildByType (TSNode.mk ty sb eb sr er cs)
              (s "function_declarator") with
          | some declarator =>
            obtain ⟨mc, hmc⟩ := @extractMethodDeclaration_total declarator
              (some (TSNode.mk ty sb eb sr er cs)) content filename namespace_path
              (nodeWFb_child h (findChildByType_mem hfd))
              (fun q hq => by injection hq with hq; rw [← hq]; exact h)
            simp only [hfd, hmc]
            repeat' first
              | (simp only [Option.bind_eq_bind', Option.some_bind'])
              | split
              | rfl
          | none =>
            simp only [hfd]
            obtain ⟨cc, hcc⟩ := @extractClass_total (TSNode.mk ty sb eb sr er cs)
              content filename namespace_path h
            obtain ⟨sc, hsc⟩ := @extractStruct_total (TSNode.mk ty sb eb sr er cs)
              content filename namespace_path h
            obtain ⟨ec, hec⟩ := @extractEnum_total (TSNode.mk ty sb eb sr er cs)
              content filename namespace_path h
            obtain ⟨nc, hnc⟩ := @extractNamespace_total (TSNode.mk ty sb eb sr er cs)
              content filename namespace_path h
            obtain ⟨cns, hcns⟩ := @childScope_total (TSNode.mk ty sb eb sr er cs)
              content namespace_path h
            obtain ⟨restr, hrestr⟩ := extractChildren_total (TSNode.mk ty sb eb sr er cs) cs
              content filename cns h (nodeWFb_children h)
            repeat' first
              | (simp only [hcc, hsc, hec, hnc, hcns, hrestr, Option.map_some',
                  Option.bind_eq_bind', Option.some_bind'])
              | split
              | rfl
        · rw [if_neg h3]
          obtain ⟨cc, hcc⟩ := @extractClass_total (TSNode.mk ty sb eb sr er cs)
            content filename namespace_path h
          obtain ⟨sc, hsc⟩ := @extractStruct_total (TSNode.mk ty sb eb sr er cs)
            content filename namespace_path h
          obtain ⟨ec, hec⟩ := @extractEnum_total (TSNode.mk ty sb eb sr er cs)
            content filename namespace_path h
          obtain ⟨nc, hnc⟩ := @extractNamespace_total (TSNode.mk ty sb eb sr er cs)
            content filename namespace_path h
          obtain ⟨cns, hcns⟩ := @childScope_total (TSNode.mk ty sb eb sr er cs)
            content namespace_path h
          obtain ⟨restr, hrestr⟩ := extractChildren_total (TSNode.mk ty sb eb sr er cs) cs
            content filename cns h (nodeWFb_children h)
          repeat' first
            | (simp only [hcc, hsc, hec, hnc, hcns, hrestr, Option.map_some',
                Option.bind_eq_bind', Option.some_bind'])
            | split
            | rfl

theorem extractChildren_total :
    ∀ (parent : TSNode) (cs : List TSNode) (content filename namespace_path : Str),
      nodeWFb content.length parent = true →
      nodesWFb content.length cs = true →
      ∃ r, extractChildren parent cs content filename namespace_path = some r
  | parent, [], content, fn, ns, hpar, hcs => ⟨[], rfl⟩
  | parent, c :: rest, content, fn, ns, hpar, hcs => by
    simp only [nodesWFb, Bool.and_eq_true] at hcs
    obtain ⟨fr, hfr⟩ := extractFromNode_total (some parent) c content fn ns
      (fun q hq => by injection hq with hq; rw [← hq]; exact hpar) hcs.1
    obtain ⟨more, hmore⟩ := extractChildren_total parent rest content fn ns hpar hcs.2
    rw [← Option.isSome_iff_exists]
    rw [extractChildren]
    simp only [hfr, hmore]
    repeat' first
      | (simp only [Option.bind_eq_bind', Option.some_bind'])
      | split
      | rfl

end

/-- Claim C9: under the precondition that every node's byte span lies within
the content, extraction is total: no text-slicing step can fail, so the
extractor returns a construct list (one malformed construct can never abort
extraction of the rest of the file). -/
theorem c9_extractConstructs_total (root : TSNode) (content filename : Str)
    (h : nodeWFb content.length root = true) :
    (extractConstructs root content filename).isSome = true := by
  obtain ⟨cs, hcs⟩ := extractFromNode_total none root content filename []
    (fun q hq => by cases hq) h
  simp only [extractConstructs, hcs]
  rfl

/-- Witness for C9 at a concrete well-formed tree. -/
theorem c9_extractConstructs_total_witness :
    nodeWFb w9Content.length w9Tree = true ∧
    (extractConstructs w9Tree w9Content (s "n.h")).isSome = true :=
  ⟨by decide, c9_extractConstructs_total w9Tree w9Content (s "n.h") (by decide)⟩

theorem follow_fold_eq (sOff e : Nat) (hse : sOff < e) :
    ∀ (ms : List (TSNode × List TSNode)),
      (∀ m ∈ ms, m.1.startByte ≤ sOff ∨ e ≤ m.1.startByte) →
      (∀ m ∈ ms, m.1.startByte - sOff < 4294967295) →
      ∀ (accC accS : Option (TSNode × List TSNode) × Nat),
        accC.1 = accS.1 →
        ((accC.1 = none ∧ accC.2 = 4294967295 ∧ accS.2 = 4294967295) ∨
         (∃ m, accC.1 = some m ∧ e ≤ m.1.startByte ∧ accC.2 = m.1.startByte - sOff ∧
            accS.2 = m.1.startByte - (e - 1) ∧ accC.2 < 4294967295)) →
        (ms.foldl
          (fun best m =>
            if sOff < m.1.startByte ∧ m.1.startByte - sOff < best.2 then
              (some m, m.1.startByte - sOff)
            else best) accC).1 =
        (ms.foldl
          (fun best m =>
            if e - 1 < m.1.startByte ∧ m.1.startByte - (e - 1) < best.2 then
              (some m, m.1.startByte - (e - 1))
            else best) accS).1 := by
  intro ms
  induction ms with
  | nil => intro _ _ accC accS heq _; exact heq
  | cons m rest ih =>
    intro hout hbound accC accS heq hinv
    have houtm := hout m (List.mem_cons_self _ _)
    have hboundm := hbound m (List.mem_cons_self _ _)
    have houtr := fun x hx => hout x (List.mem_cons_of_mem _ hx)
    have hboundr := fun x hx => hbound x (List.mem_cons_of_mem _ hx)
    simp only [List.foldl_cons]
    rcases houtm with hle | hge
    · rw [if_neg (fun hc => absurd hc.1 (not_lt.mpr hle)),
          if_neg (fun hc => absurd hc.1 (not_lt.mpr (by omega)))]
      exact ih houtr hboundr accC accS heq hinv
    · rcases hinv with ⟨hnone, hC, hS⟩ | ⟨m0, hsome, hm0e, hC, hS, hlt⟩
      · rw [if_pos ⟨by omega, by rw [hC]; omega⟩,
            if_pos ⟨by omega, by rw [hS]; omega⟩]
        refine ih houtr hboundr _ _ rfl (Or.inr ⟨m, rfl, hge, rfl, rfl, by omega⟩)
      · obtain ⟨n0, hn0⟩ : ∃ n0, m0.1.startByte = n0 := ⟨_, rfl⟩
        by_cases hup : m.1.startByte - sOff < accC.2
        · rw [if_pos ⟨by omega, hup⟩,
              if_pos ⟨by omega, by rw [hS]; rw [hC] at hup; omega⟩]
          refine ih houtr hboundr _ _ rfl (Or.inr ⟨m, rfl, hge, rfl, rfl, by omega⟩)
        · rw [if_neg (fun hc => absurd hc.2 hup),
              if_neg (fun hc => absurd hc.2 (by rw [hS]; rw [hC] at hup; omega))]
          exact ih houtr hboundr accC accS heq
            (Or.inr ⟨m0, hsome, hm0e, hC, hS, hlt⟩)

/-- Claim C8: for a comment block whose location byte offset is the comment
start `sOff` and whose exclusive end offset is `e`, provided no queried node
starts strictly inside the comment and start bytes fit in `uint32`,
`findFollowingDeclaration` selects exactly the node prescribed by the
specification: the queried node with the smallest positive difference between
its start byte and the comment's final byte `e - 1` (so the nearest
declaration beginning after the comment ends), first match in traversal order
winning ties; and when no such following node exists the block is left
unassociated, keeping its (empty) symbol name, type and namespace path. -/
theorem c8_nearest_following_declaration (root : TSNode) (content : Str)
    (sOff e : Nat) (block : DocstringBlock)
    (hse : sOff < e)
    (hloc : block.location = sOff)
    (hout : ∀ m ∈ collectDecls [] root, m.1.startByte ≤ sOff ∨ e ≤ m.1.startByte)
    (hbound : ∀ m ∈ collectDecls [] root, m.1.startByte - sOff < 4294967295) :
    findFollowingDeclaration root sOff = nearestFollowingSpec (e - 1) (collectDecls [] root) ∧
    (findFollowingDeclaration root sOff = none →
      associateOne root content block = some block) := by
  constructor
  · unfold findFollowingDeclaration nearestFollowingSpec
    exact follow_fold_eq sOff e hse (collectDecls [] root) hout hbound
      (none, 4294967295) (none, 4294967295) rfl (Or.inl ⟨rfl, rfl, rfl⟩)
  · intro hnone
    unfold associateOne
    rw [hloc, hnone]

/-- Witness for C8 over a concrete tree with a comment spanning bytes
`[0, 10)` and two following declarations. -/
theorem c8_nearest_following_declaration_witness :
    (0 < 10) ∧ c8Block.location = 0 ∧
    (∀ m ∈ collectDecls [] c8Tree, m.1.startByte ≤ 0 ∨ 10 ≤ m.1.startByte) ∧
    (findFollowingDeclaration c8Tree 0 =
        nearestFollowingSpec (10 - 1) (collectDecls [] c8Tree) ∧
      (findFollowingDeclaration c8Tree 0 = none →
        associateOne c8Tree (s "") c8Block = some c8Block)) :=
  ⟨by decide, by decide, by decide,
   c8_nearest_following_declaration c8Tree (s "") 0 10 c8Block
     (by decide) (by decide) (by decide) (by decide)⟩

end Cesium
